import Mathlib

/-!
Gridworld navigation with tabular Q-learning.

A shallow embedding of `src/Gridworld_navigation.cpp`.

* `int` values are `Int`; C++ `/` and `%` on `int` truncate toward zero, so they are
  `Int.tdiv` and `Int.tmod`.
* `float` values are rationals. The methods are embedded with exact arithmetic, which is
  what the statements in exact arithmetic are about; `updateQTableF32` is the update with
  every operation rounded to binary32, for statements about the value that is stored.
* The grid side `GRID_SIZE` is a parameter `N` of every function; the program fixes it to 5.
* Member functions of `class QLearning` run in the monad `QM`: the state is the object's data
  members, and a failed computation (`none`) is an access outside a `std::vector`.
* The generator `rng` is not part of the state: its draws are arguments of `chooseAction`.
-/

set_option linter.unusedVariables false

/-- The constant of the program: `const int GRID_SIZE = 5;`. -/
def GRID_SIZE : Int := 5

/-- Data members of `class QLearning` (without the random generator). -/
structure QLearning where
  qTable : List (List ℚ)
  alpha : ℚ
  gamma : ℚ
  epsilon : ℚ

/-- Monad of the member functions: state passing over the object, `none` for an access
outside a vector. -/
abbrev QM := StateT QLearning Option

/-- The constructor `QLearning(alpha, gamma, epsilon)`: the table is resized to `N` rows of
`N` zeros. -/
def QLearning.new (N : Int) (alpha gamma epsilon : ℚ) : QLearning :=
  { qTable := List.replicate N.toNat (List.replicate N.toNat 0)
    alpha := alpha
    gamma := gamma
    epsilon := epsilon }

/-- Element `q[i][j]` of a vector of vectors indexed by `int`s, `none` outside of it. -/
def entryAt (q : List (List ℚ)) (i j : Int) : Option ℚ :=
  if i < 0 ∨ j < 0 then none
  else
    match q[i.toNat]? with
    | none => none
    | some row => row[j.toNat]?

/-- The read `qTable[i][j]`. -/
def readQ (i j : Int) : QM ℚ := do
  let ag ← get
  match entryAt ag.qTable i j with
  | none => failure
  | some v => pure v

/-- The store `qTable[i][j] = v`. -/
def writeQ (i j : Int) (v : ℚ) : QM Unit := do
  let ag ← get
  if i < 0 ∨ j < 0 then failure
  else
    match ag.qTable[i.toNat]? with
    | none => failure
    | some row =>
      if j.toNat < row.length then
        set { ag with qTable := ag.qTable.set i.toNat (row.set j.toNat v) }
      else failure

/-- The method `QLearning::getNextState` (lines 85-105). -/
def getNextState (N state action : Int) : Int :=
  let row := state.tdiv N
  let col := state.tmod N
  let rc : Int × Int :=
    if action = 0 then (max (row - 1) 0, col)
    else if action = 1 then (min (row + 1) (N - 1), col)
    else if action = 2 then (row, max (col - 1) 0)
    else if action = 3 then (row, min (col + 1) (N - 1))
    else (row, col)
  rc.1 * N + rc.2

/-- The method `QLearning::getBestAction` (lines 19-31). -/
def getBestAction (N state : Int) : QM Int := do
  let mut bestAction : Int := 0
  let mut bestValue ← readQ (state.tdiv N) (state.tmod N)
  for action in ([1, 2, 3] : List Int) do
    let nextState := getNextState N state action
    let value ← readQ (nextState.tdiv N) (nextState.tmod N)
    if value > bestValue then
      bestAction := action
      bestValue := value
  return bestAction

/-- The method `QLearning::getMaxQValue` (lines 108-118). -/
def getMaxQValue (N state : Int) : QM ℚ := do
  let mut maxQValue ← readQ (state.tdiv N) (state.tmod N)
  for action in ([1, 2, 3] : List Int) do
    let nextState := getNextState N state action
    let qValue ← readQ (nextState.tdiv N) (nextState.tmod N)
    if qValue > maxQValue then
      maxQValue := qValue
  return maxQValue

/-- The method `QLearning::updateQTable` (lines 47-50) in exact arithmetic (no rounding of the
`float` operations): the right-hand side is evaluated, then the compound assignment reads
the entry again and stores the sum. -/
def updateQTable (N state action : Int) (reward : ℚ) (nextState : Int) : QM Unit := do
  let maxQ ← getMaxQValue N nextState
  let old ← readQ (state.tdiv N) (state.tmod N)
  let ag ← get
  let rhs := ag.alpha * (reward + ag.gamma * maxQ - old)
  let cur ← readQ (state.tdiv N) (state.tmod N)
  writeQ (state.tdiv N) (state.tmod N) (cur + rhs)

/-- The power `2 ^ e` as a rational. -/
def pow2 (e : Int) : ℚ :=
  if 0 ≤ e then ((2 ^ e.toNat : Nat) : ℚ) else 1 / ((2 ^ (-e).toNat : Nat) : ℚ)

/-- The largest `k` with `2 ^ k ≤ n` for `n ≥ 1` (and 0 for `n = 0`), by halving at most
`fuel` times. -/
def log2Nat : Nat → Nat → Nat
  | 0, _ => 0
  | fuel + 1, n => if n < 2 then 0 else log2Nat fuel (n / 2) + 1

/-- The largest `e` with `2 ^ e ≤ a`, for a rational `a > 0`. -/
def floorLog2 (a : ℚ) : Int :=
  let e0 : Int := (log2Nat a.num.natAbs a.num.natAbs : Int) - (log2Nat a.den a.den : Int)
  if pow2 e0 ≤ a then e0 else e0 - 1

/-- The integer nearest to `q ≥ 0`, the even one of the two when `q` is half-way. -/
def roundHalfEven (q : ℚ) : Int :=
  let f := Rat.floor q
  let r := q - (f : ℚ)
  if r < 1 / 2 then f else if 1 / 2 < r then f + 1 else if f % 2 = 0 then f else f + 1

/-- The `float` (IEEE 754 binary32) that holds the result `x` of an operation: round to
nearest, ties to even, with 24 significant bits, subnormals below `2 ^ (-126)`, and `none`
when the rounded magnitude reaches `2 ^ 128` (the result is an infinity, which this model
does not follow). -/
def roundF32 (x : ℚ) : Option ℚ :=
  if x = 0 then some 0
  else
    let a := if x < 0 then -x else x
    let e := max (floorLog2 a) (-126)
    let ulp := pow2 (e - 23)
    let y := (roundHalfEven (a / ulp) : ℚ) * ulp
    if pow2 128 ≤ y then none
    else some (if x < 0 then -y else y)

/-- The right-hand side `alpha * (reward + gamma * maxQ - old)` of lines 48-49 with each of
its four `float` operations rounded to binary32. -/
def rhsF32 (alpha gamma reward maxQ old : ℚ) : Option ℚ := do
  let t1 ← roundF32 (gamma * maxQ)
  let t2 ← roundF32 (reward + t1)
  let t3 ← roundF32 (t2 - old)
  roundF32 (alpha * t3)

/-- The method `QLearning::updateQTable` (lines 47-50) in binary32 arithmetic: as
`updateQTable`, with every `float` operation rounded by `roundF32` (each operation on its
own, in the order of the expression). The computation also fails when a rounded result is
not finite. -/
def updateQTableF32 (N state action : Int) (reward : ℚ) (nextState : Int) : QM Unit := do
  let maxQ ← getMaxQValue N nextState
  let old ← readQ (state.tdiv N) (state.tmod N)
  let ag ← get
  match rhsF32 ag.alpha ag.gamma reward maxQ old with
  | none => failure
  | some rhs =>
    let cur ← readQ (state.tdiv N) (state.tmod N)
    match roundF32 (cur + rhs) with
    | none => failure
    | some v => writeQ (state.tdiv N) (state.tmod N) v

/-- The method `QLearning::chooseAction` (lines 34-44); `u` is the draw from
`uniform_real_distribution(0, 1)` and `r` the draw from `uniform_int_distribution(0, 3)`. -/
def chooseAction (N : Int) (u : ℚ) (r : Int) (state : Int) : QM Int := do
  let ag ← get
  if u < ag.epsilon then
    return r
  else
    getBestAction N state

/-- The method `QLearning::decayExplorationRate` (lines 53-55). -/
def decayExplorationRate : QM Unit :=
  modify fun ag => { ag with epsilon := ag.epsilon * (99 / 100) }

/-- Line 138 of `main`: the reward of a transition into `nextState`. -/
def reward (N nextState : Int) : ℚ :=
  if nextState = N * N - 1 then 1 else 0

/-- Body of the `while` loop of `main` (lines 133-144); returns the next value of `state`. -/
def trainStep (N : Int) (u : ℚ) (r : Int) (state : Int) : QM Int := do
  let action ← chooseAction N u r state
  let nextState := getNextState N state action
  let rew := reward N nextState
  updateQTable N state action rew nextState
  return nextState

/-- A sequence of `k` calls of `decayExplorationRate`. -/
def decayTimes : Nat → QM Unit
  | 0 => pure ()
  | k + 1 => do
    decayExplorationRate
    decayTimes k

/-- The `while` loop of `main` (lines 132-145) started at `state`. Each iteration consumes one
pair of draws `(u, r)` for `chooseAction`; the loop is followed as far as the draws reach.
The result is the value of `state` where the run of the loop stands, which is `N*N - 1`
exactly when the loop has exited, and the number of iterations performed. -/
def whileLoop (N : Int) : List (ℚ × Int) → Int → QM (Int × Nat)
  | [], state => pure (state, 0)
  | (u, r) :: draws, state =>
    if state ≠ N * N - 1 then do
      let nextState ← trainStep N u r state
      let res ← whileLoop N draws nextState
      pure (res.1, res.2 + 1)
    else
      pure (state, 0)

/-- One iteration of the `for` loop of `main` (lines 127-149): `start` is the sampled start
state, then the `while` loop runs, and once it has exited the exploration rate decays. The
result is that of `whileLoop`. -/
def runEpisode (N : Int) (start : Int) (draws : List (ℚ × Int)) : QM (Int × Nat) := do
  let res ← whileLoop N draws start
  if res.1 = N * N - 1 then
    decayExplorationRate
  pure res

/-- The `for` loop of `main` (lines 127-149), one episode per element of the list (`main`
runs `numEpisodes` of them): its start state and the draws of its steps. The result is
`true` when every episode has reached the terminal state, and `false` when the run stands
inside an episode whose draws are used up. -/
def trainLoop (N : Int) : List (Int × List (ℚ × Int)) → QM Bool
  | [] => pure true
  | (start, draws) :: rest => do
    let res ← runEpisode N start draws
    if res.1 = N * N - 1 then
      trainLoop N rest
    else
      pure false

/-- The number of episodes of `main`: `const int numEpisodes = 100;`. -/
def numEpisodes : Nat := 100

/-! Vocabulary of the statements -/

/-- A state of the grid: an integer in `[0, N*N)`. -/
def ValidState (N s : Int) : Prop := 0 ≤ s ∧ s < N * N

instance (N s : Int) : Decidable (ValidState N s) := by
  unfold ValidState; infer_instance

/-- The table has `N` rows of `N` entries each. -/
def WellFormed (N : Int) (ag : QLearning) : Prop :=
  ag.qTable.length = N.toNat ∧ ∀ row ∈ ag.qTable, row.length = N.toNat

instance (N : Int) (ag : QLearning) : Decidable (WellFormed N ag) := by
  unfold WellFormed; infer_instance

/-- The table entry of a state, `qTable[s / N][s % N]`. -/
def valueAt (N : Int) (ag : QLearning) (s : Int) : Option ℚ :=
  entryAt ag.qTable (s.tdiv N) (s.tmod N)

/-- A pair of draws that the generator can produce: `u` in `[0, 1)` and `r` in `0..3`. -/
def ValidDraw (d : ℚ × Int) : Prop := 0 ≤ d.1 ∧ d.1 < 1 ∧ 0 ≤ d.2 ∧ d.2 ≤ 3

instance (d : ℚ × Int) : Decidable (ValidDraw d) := by
  unfold ValidDraw; infer_instance

/-- Every sampled start state of a run is a state of the grid. -/
def ValidStarts (N : Int) (run : List (Int × List (ℚ × Int))) : Prop :=
  ∀ e ∈ run, ValidState N e.1

instance (N : Int) (run : List (Int × List (ℚ × Int))) : Decidable (ValidStarts N run) := by
  unfold ValidStarts; infer_instance

/-- Every entry of the table satisfies `p`. -/
def AllEntries (p : ℚ → Prop) (ag : QLearning) : Prop :=
  ∀ row ∈ ag.qTable, ∀ v ∈ row, p v

/-- The property `P` of the current state and the agent is kept by every iteration of the
`while` loop: an update performed from a valid non-terminal state `s` with an action `a`
leads from `P s` to `P (getNextState N s a)`. -/
def StepInvariant (N : Int) (P : Int → QLearning → Prop) : Prop :=
  ∀ (ag : QLearning) (s a : Int) (ag' : QLearning), WellFormed N ag → P s ag →
    ValidState N s → s ≠ N * N - 1 →
    updateQTable N s a (reward N (getNextState N s a)) (getNextState N s a) ag
      = some ((), ag') →
    P (getNextState N s a) ag'

/-- The property `P` of the agent does not depend on the exploration rate. -/
def EpsilonFree (P : QLearning → Prop) : Prop :=
  ∀ (ag : QLearning) (e : ℚ), P ag → P { ag with epsilon := e }

instance (p : ℚ → Prop) [DecidablePred p] (ag : QLearning) : Decidable (AllEntries p ag) := by
  unfold AllEntries; infer_instance

/-- The entry of the state `t` is strictly positive. -/
def PositiveAt (N t : Int) (ag : QLearning) : Prop :=
  ∃ v, valueAt N ag t = some v ∧ 0 < v

deriving instance DecidableEq for QLearning

/-! Concrete agents -/

/-- The agent that main constructs: `QLearning agent(0.5f, 0.9f, 0.1f)`. -/
def mainAgent : QLearning := QLearning.new GRID_SIZE (1 / 2) (9 / 10) (1 / 10)

/-- An agent on the 5 x 5 grid whose table holds 2 at state 1 (row 0, column 1), 1 at state 11
(row 2, column 1) and 0 elsewhere, with the parameters of main. -/
def upBest : QLearning :=
  { qTable := [[0, 2, 0, 0, 0], [0, 0, 0, 0, 0], [0, 1, 0, 0, 0], [0, 0, 0, 0, 0],
      [0, 0, 0, 0, 0]]
    alpha := 1 / 2
    gamma := 9 / 10
    epsilon := 1 / 10 }

/-- The agent `upBest` with the exploration rate set to 0. -/
def greedyUpBest : QLearning := { upBest with epsilon := 0 }

/-- The agent of the end-to-end example: grid of side 2, `alpha = 1`, `gamma = 0`, zero table. -/
def smallAgent : QLearning := QLearning.new 2 1 0 (1 / 10)

/-- The agent of the end-to-end example after `updateQTable(2, Right, 1, 3)`: grid of side 2,
`alpha = 1`, `gamma = 0`, entry 1 at state 2 and 0 elsewhere. -/
def oneAtTwo : QLearning :=
  { qTable := [[0, 0], [1, 0]]
    alpha := 1
    gamma := 0
    epsilon := 1 / 10 }

/-- The `float` literal `0.1f`: the binary32 value nearest to one tenth. -/
def tenthF32 : ℚ := 13421773 / 134217728

/-- A run of two episodes with the parameters of main. The first starts at state 23 (row 4,
column 3); its one step draws `u = 0`, below the exploration rate 0.1, and the random action
3 (Right), which leads to the terminal state 24. The second starts at the terminal state. -/
def shortRun : List (Int × List (ℚ × Int)) := [(23, [(0, 3)]), (24, [])]

/-- The agent of main after the run `shortRun`: the entry of state 23 is `1/2` and the
exploration rate has decayed twice. -/
def afterShortRun : QLearning :=
  { qTable := [[0, 0, 0, 0, 0], [0, 0, 0, 0, 0], [0, 0, 0, 0, 0], [0, 0, 0, 0, 0],
      [0, 0, 0, 1 / 2, 0]]
    alpha := 1 / 2
    gamma := 9 / 10
    epsilon := 9801 / 100000 }

/-! Running the monad -/

theorem QM.bind_apply {α β : Type} (x : QM α) (f : α → QM β) (ag : QLearning) :
    (x >>= f) ag = (x ag).bind (fun p => f p.1 p.2) := by
  show (StateT.bind x f) ag = _
  unfold StateT.bind
  cases x ag <;> rfl

theorem QM.pure_apply {α : Type} (a : α) (ag : QLearning) :
    (pure a : QM α) ag = some (a, ag) := rfl

theorem QM.get_apply (ag : QLearning) : (get : QM QLearning) ag = some (ag, ag) := rfl

theorem QM.set_apply (ag ag' : QLearning) : (set ag' : QM PUnit) ag = some (PUnit.unit, ag') := rfl

theorem QM.failure_apply {α : Type} (ag : QLearning) : (failure : QM α) ag = none := rfl

theorem readQ_apply (i j : Int) (ag : QLearning) :
    readQ i j ag = (entryAt ag.qTable i j).map (fun v => (v, ag)) := by
  simp only [readQ, QM.bind_apply, QM.get_apply, Option.some_bind]
  cases entryAt ag.qTable i j <;> rfl

theorem readQ_of_entryAt {i j : Int} {ag : QLearning} {v : ℚ}
    (h : entryAt ag.qTable i j = some v) : readQ i j ag = some (v, ag) := by
  rw [readQ_apply, h]; rfl

/-- Outcome of the scan of `getMaxQValue` once the four reads are known. -/
theorem getMaxQValue_of_reads (N s : Int) (ag : QLearning) (v0 v1 v2 v3 : ℚ)
    (h0 : valueAt N ag s = some v0)
    (h1 : valueAt N ag (getNextState N s 1) = some v1)
    (h2 : valueAt N ag (getNextState N s 2) = some v2)
    (h3 : valueAt N ag (getNextState N s 3) = some v3) :
    getMaxQValue N s ag = some (max (max (max v0 v1) v2) v3, ag) := by
  have c0 := readQ_of_entryAt h0
  have c1 := readQ_of_entryAt h1
  have c2 := readQ_of_entryAt h2
  have c3 := readQ_of_entryAt h3
  simp only [getMaxQValue, List.forIn_cons, List.forIn_nil, QM.bind_apply, QM.pure_apply,
    c0, c1, c2, c3, Option.some_bind]
  by_cases g1 : v1 > v0 <;>
  simp only [g1, if_true, if_false, QM.bind_apply, QM.pure_apply, Option.some_bind, c2] <;>
  [by_cases g2 : v2 > v1; by_cases g2 : v2 > v0] <;>
  simp only [g2, if_true, if_false, QM.bind_apply, QM.pure_apply, Option.some_bind, c3] <;>
  [by_cases g3 : v3 > v2; by_cases g3 : v3 > v1; by_cases g3 : v3 > v2; by_cases g3 : v3 > v0] <;>
  simp only [g3, if_true, if_false, QM.bind_apply, QM.pure_apply, Option.some_bind] <;>
  simp only [gt_iff_lt, not_lt] at g1 g2 g3 <;>
  congr 2 <;>
  simp [max_def] <;> split_ifs <;> linarith

/-- Outcome of the scan of `getBestAction` once the four reads are known. -/
theorem getBestAction_of_reads (N s : Int) (ag : QLearning) (v0 v1 v2 v3 : ℚ)
    (h0 : valueAt N ag s = some v0)
    (h1 : valueAt N ag (getNextState N s 1) = some v1)
    (h2 : valueAt N ag (getNextState N s 2) = some v2)
    (h3 : valueAt N ag (getNextState N s 3) = some v3) :
    getBestAction N s ag =
      some (if v3 > max (max v0 v1) v2 then 3 else if v2 > max v0 v1 then 2
            else if v1 > v0 then 1 else 0, ag) := by
  have c0 := readQ_of_entryAt h0
  have c1 := readQ_of_entryAt h1
  have c2 := readQ_of_entryAt h2
  have c3 := readQ_of_entryAt h3
  simp only [getBestAction, List.forIn_cons, List.forIn_nil, QM.bind_apply, QM.pure_apply,
    c0, c1, c2, c3, Option.some_bind]
  by_cases g1 : v1 > v0 <;>
  simp only [g1, if_true, if_false, QM.bind_apply, QM.pure_apply, Option.some_bind, c2] <;>
  [by_cases g2 : v2 > v1; by_cases g2 : v2 > v0] <;>
  simp only [g2, if_true, if_false, QM.bind_apply, QM.pure_apply, Option.some_bind, c3] <;>
  [by_cases g3 : v3 > v2; by_cases g3 : v3 > v1; by_cases g3 : v3 > v2; by_cases g3 : v3 > v0] <;>
  simp only [g3, if_true, if_false, QM.bind_apply, QM.pure_apply, Option.some_bind] <;>
  simp only [gt_iff_lt, not_lt] at g1 g2 g3 <;>
  congr 2 <;>
  simp [max_def] <;> split_ifs <;> first | rfl | linarith

/-! Decoding and encoding of states -/

theorem decode_valid {N s : Int} (hN : 0 < N) (hs : ValidState N s) :
    s.tdiv N = s / N ∧ s.tmod N = s % N ∧ 0 ≤ s / N ∧ s / N < N ∧ 0 ≤ s % N ∧ s % N < N := by
  obtain ⟨h0, h1⟩ := hs
  refine ⟨Int.tdiv_eq_ediv h0 hN.le, Int.tmod_eq_emod h0 hN.le, Int.ediv_nonneg h0 hN.le,
    Int.ediv_lt_of_lt_mul hN h1, Int.emod_nonneg _ hN.ne', Int.emod_lt_of_pos _ hN⟩

theorem encode_valid {N r c : Int} (hr0 : 0 ≤ r) (hr : r < N) (hc0 : 0 ≤ c)
    (hc : c < N) : ValidState N (r * N + c) := by
  have hN : 0 ≤ N := by linarith
  have h1 : 0 ≤ r * N := mul_nonneg hr0 hN
  have h2 : 0 ≤ (N - 1 - r) * N := mul_nonneg (by linarith) hN
  constructor
  · linarith
  · nlinarith

theorem encode_div {N r c : Int} (hc0 : 0 ≤ c) (hc : c < N) :
    (r * N + c) / N = r := by
  have hN : 0 < N := lt_of_le_of_lt hc0 hc
  rw [add_comm, Int.add_mul_ediv_right _ _ hN.ne', Int.ediv_eq_zero_of_lt hc0 hc, zero_add]

theorem encode_mod {N r c : Int} (hc0 : 0 ≤ c) (hc : c < N) :
    (r * N + c) % N = c := by
  rw [add_comm, Int.add_mul_emod_self, Int.emod_eq_of_lt hc0 hc]

theorem entryAt_of_wellFormed {N : Int} {ag : QLearning} (hwf : WellFormed N ag) {i j : Int}
    (hi0 : 0 ≤ i) (hi : i < N) (hj0 : 0 ≤ j) (hj : j < N) :
    ∃ v, entryAt ag.qTable i j = some v := by
  obtain ⟨hlen, hrows⟩ := hwf
  have hi' : i.toNat < ag.qTable.length := by omega
  have hrow := hrows _ (List.getElem_mem hi')
  have hj' : j.toNat < (ag.qTable[i.toNat]).length := by omega
  refine ⟨(ag.qTable[i.toNat])[j.toNat], ?_⟩
  have hneg : ¬ (i < 0 ∨ j < 0) := by omega
  simp only [entryAt, hneg, if_false, List.getElem?_eq_getElem hi', List.getElem?_eq_getElem hj']

theorem valueAt_of_wellFormed {N : Int} {ag : QLearning} (hN : 0 < N) (hwf : WellFormed N ag)
    {s : Int} (hs : ValidState N s) : ∃ v, valueAt N ag s = some v := by
  obtain ⟨e1, e2, a, b, c, d⟩ := decode_valid hN hs
  unfold valueAt
  rw [e1, e2]
  exact entryAt_of_wellFormed hwf a b c d

theorem getNextState_eq {N s : Int} (hN : 0 < N) (hs : ValidState N s) (a : Int) :
    getNextState N s a =
      (if a = 0 then (max (s / N - 1) 0, s % N)
        else if a = 1 then (min (s / N + 1) (N - 1), s % N)
        else if a = 2 then (s / N, max (s % N - 1) 0)
        else if a = 3 then (s / N, min (s % N + 1) (N - 1))
        else (s / N, s % N)).1 * N +
      (if a = 0 then (max (s / N - 1) 0, s % N)
        else if a = 1 then (min (s / N + 1) (N - 1), s % N)
        else if a = 2 then (s / N, max (s % N - 1) 0)
        else if a = 3 then (s / N, min (s % N + 1) (N - 1))
        else (s / N, s % N)).2 := by
  obtain ⟨e1, e2, -⟩ := decode_valid hN hs
  simp only [getNextState, e1, e2]

/-- The successor of a valid state is `r * N + c` for coordinates `r`, `c` inside the grid. -/
theorem getNextState_coords {N s : Int} (hN : 0 < N) (hs : ValidState N s) (a : Int) :
    ∃ r c, getNextState N s a = r * N + c ∧ 0 ≤ r ∧ r < N ∧ 0 ≤ c ∧ c < N := by
  obtain ⟨-, -, h1, h2, h3, h4⟩ := decode_valid hN hs
  rw [getNextState_eq hN hs]
  split_ifs
  · exact ⟨_, _, rfl, by dsimp only; omega, by dsimp only; omega, h3, h4⟩
  · exact ⟨_, _, rfl, by dsimp only; omega, by dsimp only; omega, h3, h4⟩
  · exact ⟨_, _, rfl, h1, h2, by dsimp only; omega, by dsimp only; omega⟩
  · exact ⟨_, _, rfl, h1, h2, by dsimp only; omega, by dsimp only; omega⟩
  · exact ⟨_, _, rfl, h1, h2, h3, h4⟩

theorem getNextState_inRange {N s : Int} (hN : 0 < N) (hs : ValidState N s) (a : Int) :
    ValidState N (getNextState N s a) := by
  obtain ⟨r, c, e, h1, h2, h3, h4⟩ := getNextState_coords hN hs a
  rw [e]
  exact encode_valid h1 h2 h3 h4

/-! Stores -/

theorem entryAt_some {q : List (List ℚ)} {i j : Int} {v : ℚ} (h : entryAt q i j = some v) :
    ¬ (i < 0 ∨ j < 0) ∧ ∃ row, q[i.toNat]? = some row ∧ row[j.toNat]? = some v := by
  unfold entryAt at h
  by_cases hneg : i < 0 ∨ j < 0
  · rw [if_pos hneg] at h; cases h
  · rw [if_neg hneg] at h
    refine ⟨hneg, ?_⟩
    cases hrow : q[i.toNat]? with
    | none => rw [hrow] at h; cases h
    | some row => rw [hrow] at h; exact ⟨row, rfl, h⟩

theorem entryAt_set_same {q : List (List ℚ)} {i j : Int} {row : List ℚ} (v : ℚ)
    (hneg : ¬ (i < 0 ∨ j < 0)) (hrow : q[i.toNat]? = some row) (hj : j.toNat < row.length) :
    entryAt (q.set i.toNat (row.set j.toNat v)) i j = some v := by
  have hi : i.toNat < q.length := by
    rcases List.getElem?_eq_some.1 hrow with ⟨h, -⟩
    exact h
  simp [entryAt, hneg, List.getElem?_set, hi, hj]

theorem entryAt_set_other {q : List (List ℚ)} {i j : Int} {row : List ℚ} (v : ℚ)
    (hneg : ¬ (i < 0 ∨ j < 0)) (hrow : q[i.toNat]? = some row) (i2 j2 : Int)
    (hne : i2 ≠ i ∨ j2 ≠ j) :
    entryAt (q.set i.toNat (row.set j.toNat v)) i2 j2 = entryAt q i2 j2 := by
  have hi : i.toNat < q.length := by
    rcases List.getElem?_eq_some.1 hrow with ⟨h, -⟩
    exact h
  unfold entryAt
  by_cases hneg2 : i2 < 0 ∨ j2 < 0
  · simp only [if_pos hneg2]
  · simp only [if_neg hneg2]
    by_cases hi2 : i2 = i
    · subst hi2
      have hj2 : j.toNat ≠ j2.toNat := by omega
      simp [List.getElem?_set, hi, hrow, hj2]
    · have hi3 : i.toNat ≠ i2.toNat := by omega
      simp [List.getElem?_set, hi3]

theorem writeQ_run {ag : QLearning} {i j : Int} {old : ℚ} (v : ℚ)
    (h : entryAt ag.qTable i j = some old) :
    ∃ q, writeQ i j v ag = some ((), { ag with qTable := q }) ∧
      q.length = ag.qTable.length ∧
      (∀ n, (∀ row ∈ ag.qTable, row.length = n) → ∀ row ∈ q, row.length = n) ∧
      entryAt q i j = some v ∧
      ∀ i2 j2 : Int, (i2 ≠ i ∨ j2 ≠ j) → entryAt q i2 j2 = entryAt ag.qTable i2 j2 := by
  obtain ⟨hneg, row, hrow, hv⟩ := entryAt_some h
  have hj : j.toNat < row.length := by
    rcases List.getElem?_eq_some.1 hv with ⟨h, -⟩
    exact h
  refine ⟨ag.qTable.set i.toNat (row.set j.toNat v), ?_, by simp, ?_,
    entryAt_set_same v hneg hrow hj, entryAt_set_other v hneg hrow⟩
  · simp only [writeQ, QM.bind_apply, QM.get_apply, Option.some_bind, if_neg hneg, hrow,
      if_pos hj]
    rfl
  · intro n hn r hr
    rcases List.mem_or_eq_of_mem_set hr with h1 | h1
    · exact hn r h1
    · rw [h1, List.length_set]
      exact hn row (List.getElem?_mem hrow)

/-! The methods on a well-formed table -/

theorem reads_of_wellFormed {N : Int} {ag : QLearning} (hN : 0 < N) (hwf : WellFormed N ag)
    {s : Int} (hs : ValidState N s) :
    ∃ v0 v1 v2 v3, valueAt N ag s = some v0 ∧
      valueAt N ag (getNextState N s 1) = some v1 ∧
      valueAt N ag (getNextState N s 2) = some v2 ∧
      valueAt N ag (getNextState N s 3) = some v3 := by
  obtain ⟨v0, h0⟩ := valueAt_of_wellFormed hN hwf hs
  obtain ⟨v1, h1⟩ := valueAt_of_wellFormed hN hwf (getNextState_inRange hN hs 1)
  obtain ⟨v2, h2⟩ := valueAt_of_wellFormed hN hwf (getNextState_inRange hN hs 2)
  obtain ⟨v3, h3⟩ := valueAt_of_wellFormed hN hwf (getNextState_inRange hN hs 3)
  exact ⟨v0, v1, v2, v3, h0, h1, h2, h3⟩

theorem updateQTable_of_reads {N s ns : Int} {ag : QLearning} {old m : ℚ} (a : Int) (r : ℚ)
    (hold : valueAt N ag s = some old) (hm : getMaxQValue N ns ag = some (m, ag)) :
    updateQTable N s a r ns ag =
      writeQ (s.tdiv N) (s.tmod N) (old + ag.alpha * (r + ag.gamma * m - old)) ag := by
  have c := readQ_of_entryAt hold
  simp only [updateQTable, QM.bind_apply, QM.get_apply, hm, c, Option.some_bind]

theorem decode_injective {N s t : Int} (h1 : s.tdiv N = t.tdiv N) (h2 : s.tmod N = t.tmod N) :
    s = t := by
  rw [← Int.tdiv_add_tmod s N, ← Int.tdiv_add_tmod t N, h1, h2]

theorem updateQTable_run {N : Int} {ag : QLearning} (hN : 0 < N) (hwf : WellFormed N ag)
    {s ns : Int} (hs : ValidState N s) (hns : ValidState N ns) (a : Int) (r : ℚ) :
    ∃ old m q, valueAt N ag s = some old ∧ getMaxQValue N ns ag = some (m, ag) ∧
      updateQTable N s a r ns ag = some ((), { ag with qTable := q }) ∧
      WellFormed N { ag with qTable := q } ∧
      entryAt q (s.tdiv N) (s.tmod N) = some (old + ag.alpha * (r + ag.gamma * m - old)) ∧
      ∀ i j : Int, (i ≠ s.tdiv N ∨ j ≠ s.tmod N) → entryAt q i j = entryAt ag.qTable i j := by
  obtain ⟨old, hold⟩ := valueAt_of_wellFormed hN hwf hs
  obtain ⟨v0, v1, v2, v3, h0, h1, h2, h3⟩ := reads_of_wellFormed hN hwf hns
  have hm := getMaxQValue_of_reads N ns ag v0 v1 v2 v3 h0 h1 h2 h3
  obtain ⟨q, hw, hlen, hrows, hsame, hother⟩ :=
    writeQ_run (old + ag.alpha * (r + ag.gamma * (max (max (max v0 v1) v2) v3) - old)) hold
  refine ⟨old, _, q, hold, hm, ?_, ⟨?_, ?_⟩, hsame, hother⟩
  · rw [updateQTable_of_reads a r hold hm, hw]
  · exact hlen.trans hwf.1
  · exact hrows _ hwf.2

/-! The transition function -/

/-- C4: for a state in `[0, N*N)`, with `row = state / N` and `col = state % N`, the result of
`getNextState` is `row1 * N + col1` where `(row1, col1)` is `(max (row-1) 0, col)` for Up (0),
`(min (row+1) (N-1), col)` for Down (1), `(row, max (col-1) 0)` for Left (2) and
`(row, min (col+1) (N-1))` for Right (3); decoding the result gives back exactly `row1` and
`col1`, so no move wraps around an edge. -/
theorem getNextState_clamps (N state : Int) (hN : 0 < N) (hs : ValidState N state) :
    (getNextState N state 0 = max (state / N - 1) 0 * N + state % N ∧
      getNextState N state 0 / N = max (state / N - 1) 0 ∧
      getNextState N state 0 % N = state % N) ∧
    (getNextState N state 1 = min (state / N + 1) (N - 1) * N + state % N ∧
      getNextState N state 1 / N = min (state / N + 1) (N - 1) ∧
      getNextState N state 1 % N = state % N) ∧
    (getNextState N state 2 = state / N * N + max (state % N - 1) 0 ∧
      getNextState N state 2 / N = state / N ∧
      getNextState N state 2 % N = max (state % N - 1) 0) ∧
    (getNextState N state 3 = state / N * N + min (state % N + 1) (N - 1) ∧
      getNextState N state 3 / N = state / N ∧
      getNextState N state 3 % N = min (state % N + 1) (N - 1)) := by
  obtain ⟨-, -, h1, h2, h3, h4⟩ := decode_valid hN hs
  have e0 : getNextState N state 0 = max (state / N - 1) 0 * N + state % N := by
    rw [getNextState_eq hN hs]; simp
  have e1 : getNextState N state 1 = min (state / N + 1) (N - 1) * N + state % N := by
    rw [getNextState_eq hN hs]; simp
  have e2 : getNextState N state 2 = state / N * N + max (state % N - 1) 0 := by
    rw [getNextState_eq hN hs]; simp
  have e3 : getNextState N state 3 = state / N * N + min (state % N + 1) (N - 1) := by
    rw [getNextState_eq hN hs]; simp
  have c2 : 0 ≤ max (state % N - 1) 0 ∧ max (state % N - 1) 0 < N := by omega
  have c3 : 0 ≤ min (state % N + 1) (N - 1) ∧ min (state % N + 1) (N - 1) < N := by omega
  refine ⟨⟨e0, ?_, ?_⟩, ⟨e1, ?_, ?_⟩, ⟨e2, ?_, ?_⟩, ⟨e3, ?_, ?_⟩⟩
  · rw [e0]; exact encode_div h3 h4
  · rw [e0]; exact encode_mod h3 h4
  · rw [e1]; exact encode_div h3 h4
  · rw [e1]; exact encode_mod h3 h4
  · rw [e2]; exact encode_div c2.1 c2.2
  · rw [e2]; exact encode_mod c2.1 c2.2
  · rw [e3]; exact encode_div c3.1 c3.2
  · rw [e3]; exact encode_mod c3.1 c3.2

/-- C4 at `GRID_SIZE` and state 9 (row 1, column 4): Up gives 4, Down 14, Left 8 and Right
stays at 9 instead of wrapping to 10. -/
theorem getNextState_clamps_witness :
    ValidState GRID_SIZE 9 ∧ getNextState GRID_SIZE 9 0 = 4 ∧ getNextState GRID_SIZE 9 1 = 14 ∧
      getNextState GRID_SIZE 9 2 = 8 ∧ getNextState GRID_SIZE 9 3 = 9 ∧
      getNextState GRID_SIZE 9 3 / GRID_SIZE = 1 :=
  have h := getNextState_clamps GRID_SIZE 9 (by decide) (by decide)
  ⟨by decide, h.1.1.trans (by decide), h.2.1.1.trans (by decide), h.2.2.1.1.trans (by decide),
    h.2.2.2.1.trans (by decide), h.2.2.2.2.1.trans (by decide)⟩

/-- C5: for a state in `[0, N*N)` the result of `getNextState` is in `[0, N*N)`, for each of
the four actions 0..3 (and for any other action value, which leaves the state as it is). -/
theorem getNextState_valid (N state action : Int) (hN : 0 < N) (hs : ValidState N state) :
    ValidState N (getNextState N state action) :=
  getNextState_inRange hN hs action

/-- C5 at `GRID_SIZE`, the last state 24 and the action Right. -/
theorem getNextState_valid_witness :
    ValidState GRID_SIZE 24 ∧ ValidState GRID_SIZE (getNextState GRID_SIZE 24 3) :=
  ⟨by decide, getNextState_valid GRID_SIZE 24 3 (by decide) (by decide)⟩

/-- C10: boundary clamp. From a state of row 0, Up returns the state itself (so the row is
unchanged); Down returns the state itself from a state of row `N-1`, Left from a state of
column 0 and Right from a state of column `N-1`. -/
theorem getNextState_boundary (N state : Int) (hN : 0 < N) (hs : ValidState N state) :
    (state / N = 0 →
      getNextState N state 0 = state ∧ getNextState N state 0 / N = state / N) ∧
    (state / N = N - 1 → getNextState N state 1 = state) ∧
    (state % N = 0 → getNextState N state 2 = state) ∧
    (state % N = N - 1 → getNextState N state 3 = state) := by
  have key : state / N * N + state % N = state := Int.ediv_add_emod' state N
  refine ⟨fun h => ?_, fun h => ?_, fun h => ?_, fun h => ?_⟩
  · have e : getNextState N state 0 = state := by
      rw [getNextState_eq hN hs]
      simp only [if_true, h]
      rw [h] at key
      simpa using key
    exact ⟨e, by rw [e]⟩
  · rw [getNextState_eq hN hs]
    simp only [if_true, h, one_ne_zero, if_false]
    rw [h] at key
    simpa using key
  · rw [getNextState_eq hN hs]
    simp only [if_true, h, if_false]
    rw [h] at key
    simpa using key
  · rw [getNextState_eq hN hs]
    simp only [if_true, h, if_false]
    rw [h] at key
    simpa using key

/-- C10 at `GRID_SIZE`: state 4 is in row 0 and column 4, state 20 in row 4 and column 0. -/
theorem getNextState_boundary_witness :
    getNextState GRID_SIZE 4 0 = 4 ∧ getNextState GRID_SIZE 4 3 = 4 ∧
      getNextState GRID_SIZE 20 1 = 20 ∧ getNextState GRID_SIZE 20 2 = 20 :=
  have h4 := getNextState_boundary GRID_SIZE 4 (by decide) (by decide)
  have h20 := getNextState_boundary GRID_SIZE 20 (by decide) (by decide)
  ⟨(h4.1 (by decide)).1, h4.2.2.2 (by decide), h20.2.1 (by decide), h20.2.2.1 (by decide)⟩

/-! The update of the table -/

/-- C1: on a table of `N` rows of `N` entries and for valid `state` and `nextState`,
`updateQTable(state, action, reward, nextState)` returns, and afterwards the entry of `state`
is `old + alpha * (reward + gamma * m - old)`, where `old` is that entry before the call and
`m` is what `getMaxQValue(nextState)` returns on the table before the call. -/
theorem updateQTable_entry (N : Int) (ag : QLearning) (state action : Int) (reward : ℚ)
    (nextState : Int) (hN : 0 < N) (hwf : WellFormed N ag) (hs : ValidState N state)
    (hns : ValidState N nextState) :
    ∃ old m ag', valueAt N ag state = some old ∧
      getMaxQValue N nextState ag = some (m, ag) ∧
      updateQTable N state action reward nextState ag = some ((), ag') ∧
      valueAt N ag' state = some (old + ag.alpha * (reward + ag.gamma * m - old)) := by
  obtain ⟨old, m, q, h1, h2, h3, -, h5, -⟩ := updateQTable_run hN hwf hs hns action reward
  exact ⟨old, m, _, h1, h2, h3, h5⟩

/-- C1 on the table `upBest`: `updateQTable(6, Down, 0, 11)` reads `old = 0` and
`getMaxQValue(11) = 1`, and stores `0 + 1/2 * (0 + 9/10 * 1 - 0) = 9/20` at state 6. -/
theorem updateQTable_entry_witness :
    ∃ ag', updateQTable GRID_SIZE 6 1 0 11 upBest = some ((), ag') ∧
      valueAt GRID_SIZE ag' 6 = some (9 / 20) := by
  obtain ⟨old, m, ag', h1, h2, h3, h4⟩ :=
    updateQTable_entry GRID_SIZE upBest 6 1 0 11 (by decide) (by decide) (by decide) (by decide)
  have e1 : old = 0 := (Option.some.inj h1).symm
  have e2 : m = 1 := by
    have h := getMaxQValue_of_reads GRID_SIZE 11 upBest 1 0 0 0 rfl rfl rfl rfl
    rw [h] at h2
    have h5 := congrArg Prod.fst (Option.some.inj h2)
    simp at h5
    exact h5.symm
  refine ⟨ag', h3, ?_⟩
  rw [h4, e1, e2]
  norm_num [upBest]

/-- C6: on a well-formed table and valid states, `updateQTable` returns an agent whose table
differs from the old one at most in the entry `qTable[state / N][state % N]`: every other
entry, hence the entry of every other state, is unchanged (and so are `alpha`, `gamma` and
`epsilon`); `getBestAction` and `getMaxQValue` return with the agent unchanged. -/
theorem table_frame (N : Int) (ag : QLearning) (state action : Int) (reward : ℚ)
    (nextState : Int) (hN : 0 < N) (hwf : WellFormed N ag) (hs : ValidState N state)
    (hns : ValidState N nextState) :
    (∃ ag', updateQTable N state action reward nextState ag = some ((), ag') ∧
      (∀ i j : Int, (i ≠ state.tdiv N ∨ j ≠ state.tmod N) →
        entryAt ag'.qTable i j = entryAt ag.qTable i j) ∧
      (∀ s : Int, s ≠ state → valueAt N ag' s = valueAt N ag s) ∧
      ag'.alpha = ag.alpha ∧ ag'.gamma = ag.gamma ∧ ag'.epsilon = ag.epsilon) ∧
    (∃ a, getBestAction N state ag = some (a, ag)) ∧
    (∃ m, getMaxQValue N state ag = some (m, ag)) := by
  obtain ⟨old, m, q, -, -, h3, -, -, h6⟩ := updateQTable_run hN hwf hs hns action reward
  obtain ⟨v0, v1, v2, v3, r0, r1, r2, r3⟩ := reads_of_wellFormed hN hwf hs
  refine ⟨⟨_, h3, h6, ?_, rfl, rfl, rfl⟩,
    ⟨_, getBestAction_of_reads N state ag v0 v1 v2 v3 r0 r1 r2 r3⟩,
    ⟨_, getMaxQValue_of_reads N state ag v0 v1 v2 v3 r0 r1 r2 r3⟩⟩
  intro s hne
  apply h6
  by_contra hcon
  push_neg at hcon
  exact hne (decode_injective hcon.1 hcon.2)

/-- C6 on the table `upBest`: after `updateQTable(6, Down, 0, 11)` the entries of states 1
and 11 are still 2 and 1, and the two read-only methods return `upBest` as it was. -/
theorem table_frame_witness :
    (∃ ag', updateQTable GRID_SIZE 6 1 0 11 upBest = some ((), ag') ∧
      valueAt GRID_SIZE ag' 1 = some 2 ∧ valueAt GRID_SIZE ag' 11 = some 1) ∧
    (∃ a, getBestAction GRID_SIZE 6 upBest = some (a, upBest)) ∧
    (∃ m, getMaxQValue GRID_SIZE 6 upBest = some (m, upBest)) := by
  obtain ⟨⟨ag', h1, -, h2, -⟩, h3, h4⟩ :=
    table_frame GRID_SIZE upBest 6 1 0 11 (by decide) (by decide) (by decide) (by decide)
  exact ⟨⟨ag', h1, (h2 1 (by decide)).trans rfl, (h2 11 (by decide)).trans rfl⟩, h3, h4⟩

/-- C7: the outcome of `updateQTable` (failure, or the agent with its new table) is the same
for any two values of the `action` argument. -/
theorem updateQTable_action_irrelevant (N : Int) (ag : QLearning) (state a1 a2 : Int)
    (reward : ℚ) (nextState : Int) :
    updateQTable N state a1 reward nextState ag = updateQTable N state a2 reward nextState ag :=
  rfl

/-- C8: the reward of a transition is 1 exactly when `nextState = N*N - 1` and 0 otherwise;
it is the same for any two pairs of state and action with the same successor; and it is the
reward that the training step passes to `updateQTable`. -/
theorem reward_terminal (N nextState : Int) :
    (reward N nextState = 1 ↔ nextState = N * N - 1) ∧
    (nextState ≠ N * N - 1 → reward N nextState = 0) ∧
    (∀ s1 a1 s2 a2 : Int, getNextState N s1 a1 = nextState → getNextState N s2 a2 = nextState →
      reward N (getNextState N s1 a1) = reward N (getNextState N s2 a2)) ∧
    (∀ (u : ℚ) (r state : Int), trainStep N u r state =
      (do
        let action ← chooseAction N u r state
        updateQTable N state action (reward N (getNextState N state action))
          (getNextState N state action)
        pure (getNextState N state action))) := by
  refine ⟨?_, ?_, ?_, fun _ _ _ => rfl⟩
  · unfold reward
    split_ifs with h
    · simp [h]
    · simp [h]
  · intro h
    simp [reward, h]
  · intro s1 a1 s2 a2 h1 h2
    rw [h1, h2]

theorem roundF32_zero : roundF32 0 = some 0 := by
  simp [roundF32]

/-- Known values of binary32 rounding: the literals `0.9f` and `0.99f`, a tie that goes to
the even neighbour, the largest finite `float`, the overflow threshold, and a subnormal
tie. -/
theorem roundF32_examples :
    roundF32 (9 / 10) = some (7549747 / 8388608) ∧
    roundF32 (99 / 100) = some (4152361 / 4194304) ∧
    roundF32 16777217 = some 16777216 ∧ roundF32 16777219 = some 16777220 ∧
    roundF32 (2 ^ 128 - 2 ^ 103 - 1) = some (2 ^ 128 - 2 ^ 104) ∧
    roundF32 (2 ^ 128 - 2 ^ 103) = none ∧
    roundF32 (3 / 2 ^ 150) = some (1 / 2 ^ 148) ∧ roundF32 (1 / 2 ^ 150) = some 0 := by
  decide!

theorem updateQTableF32_of_reads {N s ns : Int} {ag : QLearning} {old m rhs v : ℚ} (a : Int)
    (r : ℚ) (hold : valueAt N ag s = some old) (hm : getMaxQValue N ns ag = some (m, ag))
    (hrhs : rhsF32 ag.alpha ag.gamma r m old = some rhs)
    (hv : roundF32 (old + rhs) = some v) :
    updateQTableF32 N s a r ns ag = writeQ (s.tdiv N) (s.tmod N) v ag := by
  have c := readQ_of_entryAt hold
  simp only [updateQTableF32, QM.bind_apply, QM.get_apply, hm, c, Option.some_bind, hrhs, hv]

/-- The right-hand side in binary32 for `alpha = 1` and `gamma = 0`, when `reward` and
`reward - old` are binary32 values. -/
theorem rhsF32_alpha_one_gamma_zero {reward m old : ℚ} (hrew : roundF32 reward = some reward)
    (hdiff : roundF32 (reward - old) = some (reward - old)) :
    rhsF32 1 0 reward m old = some (reward - old) := by
  simp only [rhsF32, zero_mul, roundF32_zero, Option.bind_eq_bind, Option.some_bind, add_zero,
    hrew, one_mul, hdiff]

/-- C9 as amended: with `alpha = 1` and `gamma = 0`, on a well-formed table and valid
states, `updateQTable` leaves the entry of every other state unchanged and sets the entry of
`state` to exactly `reward` in exact arithmetic; in the binary32 arithmetic of the code it
stores exactly `reward` whenever `reward` and `reward - old` are binary32 values, `old`
being the entry of `state` before the call, and in particular whenever `old = 0`, as in the
zero-initialised table. -/
theorem updateQTable_alpha_one_gamma_zero (N : Int) (ag : QLearning) (state action : Int)
    (reward : ℚ) (nextState : Int) (hN : 0 < N) (hwf : WellFormed N ag)
    (hs : ValidState N state) (hns : ValidState N nextState)
    (halpha : ag.alpha = 1) (hgamma : ag.gamma = 0) :
    (∃ ag', updateQTable N state action reward nextState ag = some ((), ag') ∧
      valueAt N ag' state = some reward ∧
      ∀ s : Int, s ≠ state → valueAt N ag' s = valueAt N ag s) ∧
    (∀ old : ℚ, valueAt N ag state = some old → roundF32 reward = some reward →
      roundF32 (reward - old) = some (reward - old) →
      ∃ ag', updateQTableF32 N state action reward nextState ag = some ((), ag') ∧
        valueAt N ag' state = some reward ∧
        ∀ s : Int, s ≠ state → valueAt N ag' s = valueAt N ag s) ∧
    (valueAt N ag state = some 0 → roundF32 reward = some reward →
      ∃ ag', updateQTableF32 N state action reward nextState ag = some ((), ag') ∧
        valueAt N ag' state = some reward ∧
        ∀ s : Int, s ≠ state → valueAt N ag' s = valueAt N ag s) := by
  have hframe : ∀ (q : List (List ℚ)),
      (∀ i j : Int, (i ≠ state.tdiv N ∨ j ≠ state.tmod N) →
        entryAt q i j = entryAt ag.qTable i j) →
      ∀ s : Int, s ≠ state → entryAt q (s.tdiv N) (s.tmod N) = valueAt N ag s := by
    intro q h6 s hne
    apply h6
    by_contra hcon
    push_neg at hcon
    exact hne (decode_injective hcon.1 hcon.2)
  have hF32 : ∀ old : ℚ, valueAt N ag state = some old → roundF32 reward = some reward →
      roundF32 (reward - old) = some (reward - old) →
      ∃ ag', updateQTableF32 N state action reward nextState ag = some ((), ag') ∧
        valueAt N ag' state = some reward ∧
        ∀ s : Int, s ≠ state → valueAt N ag' s = valueAt N ag s := by
    intro old hold hrew hdiff
    obtain ⟨v0, v1, v2, v3, r0, r1, r2, r3⟩ := reads_of_wellFormed hN hwf hns
    have hm := getMaxQValue_of_reads N nextState ag v0 v1 v2 v3 r0 r1 r2 r3
    have hrhs : rhsF32 ag.alpha ag.gamma reward (max (max (max v0 v1) v2) v3) old
        = some (reward - old) := by
      rw [halpha, hgamma]
      exact rhsF32_alpha_one_gamma_zero hrew hdiff
    have hsum : roundF32 (old + (reward - old)) = some reward := by
      rw [add_sub_cancel]
      exact hrew
    obtain ⟨q, hw, -, -, hsame, hother⟩ := writeQ_run reward hold
    refine ⟨{ ag with qTable := q }, ?_, hsame, hframe q hother⟩
    rw [updateQTableF32_of_reads action reward hold hm hrhs hsum, hw]
  refine ⟨?_, hF32, ?_⟩
  · obtain ⟨old, m, q, -, -, h3, -, h5, h6⟩ := updateQTable_run hN hwf hs hns action reward
    refine ⟨_, h3, ?_, hframe q h6⟩
    show entryAt q (state.tdiv N) (state.tmod N) = some reward
    rw [h5, halpha, hgamma]
    congr 1
    ring
  · intro hold hrew
    exact hF32 0 hold hrew (by rw [sub_zero]; exact hrew)

/-- C9, the end-to-end example: on the grid of side 2 with the zero table, `alpha = 1` and
`gamma = 0`, `updateQTable(2, Right, 1, 3)` gives 1 at state 2 and 0 at states 0, 1 and 3,
in exact arithmetic and in binary32 arithmetic. -/
theorem updateQTable_alpha_one_gamma_zero_witness :
    (∃ ag', updateQTable 2 2 3 1 3 smallAgent = some ((), ag') ∧
      valueAt 2 ag' 2 = some 1 ∧ valueAt 2 ag' 0 = some 0 ∧ valueAt 2 ag' 1 = some 0 ∧
      valueAt 2 ag' 3 = some 0) ∧
    (∃ ag', updateQTableF32 2 2 3 1 3 smallAgent = some ((), ag') ∧
      valueAt 2 ag' 2 = some 1 ∧ valueAt 2 ag' 0 = some 0 ∧ valueAt 2 ag' 1 = some 0 ∧
      valueAt 2 ag' 3 = some 0) := by
  obtain ⟨⟨ag1, h1, h2, h3⟩, -, hzero⟩ :=
    updateQTable_alpha_one_gamma_zero 2 smallAgent 2 3 1 3 (by decide) (by decide) (by decide)
      (by decide) rfl rfl
  obtain ⟨ag2, k1, k2, k3⟩ := hzero rfl (by decide!)
  exact ⟨⟨ag1, h1, h2, (h3 0 (by decide)).trans rfl, (h3 1 (by decide)).trans rfl,
      (h3 3 (by decide)).trans rfl⟩,
    ⟨ag2, k1, k2, (k3 0 (by decide)).trans rfl, (k3 1 (by decide)).trans rfl,
      (k3 3 (by decide)).trans rfl⟩⟩

/-- C9, counterexample to the claim as stated: on the grid of side 2 with `alpha = 1` and
`gamma = 0`, the agent `oneAtTwo` is what the end-to-end example leaves behind, with entry
1 at state 2. In binary32 arithmetic `updateQTable(2, Right, 0.1f, 3)` computes
`0.1f - 1.0f`, which rounds to `-15099494 / 2^24`, and stores `1 - 15099494 / 2^24`, that is
`838861 / 8388608`: not the reward `0.1f`. The other entries stay 0. -/
theorem updateQTableF32_not_reward :
    WellFormed 2 oneAtTwo ∧ ValidState 2 2 ∧ ValidState 2 3 ∧
    oneAtTwo.alpha = 1 ∧ oneAtTwo.gamma = 0 ∧
    updateQTableF32 2 2 3 1 3 smallAgent = some ((), oneAtTwo) ∧
    roundF32 (1 / 10) = some tenthF32 ∧ roundF32 tenthF32 = some tenthF32 ∧
    roundF32 (tenthF32 - 1) = some (-15099494 / 16777216) ∧
    updateQTableF32 2 2 3 tenthF32 3 oneAtTwo
      = some ((), { oneAtTwo with qTable := [[0, 0], [838861 / 8388608, 0]] }) ∧
    valueAt 2 { oneAtTwo with qTable := [[0, 0], [838861 / 8388608, 0]] } 2
      = some (838861 / 8388608) ∧
    (838861 / 8388608 : ℚ) ≠ tenthF32 := by
  decide!

/-! The scans over the actions -/

/-- C2, the code at state 6 of the table `upBest`: the successors by Up, Down, Left and Right
are the states 1, 11, 5 and 7 with the values 2, 1, 0 and 0, and `getMaxQValue` returns 1,
the maximum of the state's own value 0 and the values of the last three. -/
theorem getMaxQValue_misses_up :
    getMaxQValue GRID_SIZE 6 upBest = some (1, upBest) ∧
    valueAt GRID_SIZE upBest (getNextState GRID_SIZE 6 0) = some 2 ∧
    valueAt GRID_SIZE upBest (getNextState GRID_SIZE 6 1) = some 1 ∧
    valueAt GRID_SIZE upBest (getNextState GRID_SIZE 6 2) = some 0 ∧
    valueAt GRID_SIZE upBest (getNextState GRID_SIZE 6 3) = some 0 := by
  refine ⟨?_, rfl, rfl, rfl, rfl⟩
  rw [getMaxQValue_of_reads GRID_SIZE 6 upBest 0 1 0 0 rfl rfl rfl rfl]
  norm_num

/-- C3, the code at state 6 of the table `upBest`: the successors by Up, Down, Left and Right
have the values 2, 1, 0 and 0, and `getBestAction` returns 1 (Down), not 0 (Up). -/
theorem getBestAction_misses_up :
    getBestAction GRID_SIZE 6 upBest = some (1, upBest) ∧
    valueAt GRID_SIZE upBest (getNextState GRID_SIZE 6 0) = some 2 ∧
    valueAt GRID_SIZE upBest (getNextState GRID_SIZE 6 1) = some 1 ∧
    valueAt GRID_SIZE upBest (getNextState GRID_SIZE 6 2) = some 0 ∧
    valueAt GRID_SIZE upBest (getNextState GRID_SIZE 6 3) = some 0 := by
  refine ⟨?_, rfl, rfl, rfl, rfl⟩
  rw [getBestAction_of_reads GRID_SIZE 6 upBest 0 1 0 0 rfl rfl rfl rfl]
  norm_num

/-- C19: on a well-formed table and a valid state, `getMaxQValue(state)` returns the maximum
of the state's own entry `v0` and the entries `v1`, `v2`, `v3` of its Down, Left and Right
successors, so it is at least the state's own entry; the entry of the Up successor is never
read: any agent with these four entries gets the same result. -/
theorem getMaxQValue_own_and_three (N : Int) (ag : QLearning) (state : Int) (hN : 0 < N)
    (hwf : WellFormed N ag) (hs : ValidState N state) :
    ∃ v0 v1 v2 v3, valueAt N ag state = some v0 ∧
      valueAt N ag (getNextState N state 1) = some v1 ∧
      valueAt N ag (getNextState N state 2) = some v2 ∧
      valueAt N ag (getNextState N state 3) = some v3 ∧
      getMaxQValue N state ag = some (max (max (max v0 v1) v2) v3, ag) ∧
      v0 ≤ max (max (max v0 v1) v2) v3 ∧
      ∀ ag2 : QLearning, valueAt N ag2 state = some v0 →
        valueAt N ag2 (getNextState N state 1) = some v1 →
        valueAt N ag2 (getNextState N state 2) = some v2 →
        valueAt N ag2 (getNextState N state 3) = some v3 →
        getMaxQValue N state ag2 = some (max (max (max v0 v1) v2) v3, ag2) := by
  obtain ⟨v0, v1, v2, v3, r0, r1, r2, r3⟩ := reads_of_wellFormed hN hwf hs
  refine ⟨v0, v1, v2, v3, r0, r1, r2, r3,
    getMaxQValue_of_reads N state ag v0 v1 v2 v3 r0 r1 r2 r3, ?_, ?_⟩
  · exact le_trans (le_trans (le_max_left v0 v1) (le_max_left _ v2)) (le_max_left _ v3)
  · intro ag2 q0 q1 q2 q3
    exact getMaxQValue_of_reads N state ag2 v0 v1 v2 v3 q0 q1 q2 q3

/-- C19 at state 6 of the table `upBest`: the own entry is 0, the Down, Left and Right
successors hold 1, 0 and 0, and the result is 1 although the Up successor holds 2. -/
theorem getMaxQValue_own_and_three_witness :
    ∃ m, getMaxQValue GRID_SIZE 6 upBest = some (m, upBest) ∧ m = 1 ∧
      valueAt GRID_SIZE upBest (getNextState GRID_SIZE 6 0) = some 2 := by
  obtain ⟨v0, v1, v2, v3, r0, r1, r2, r3, h, -, -⟩ :=
    getMaxQValue_own_and_three GRID_SIZE upBest 6 (by decide) (by decide) (by decide)
  have e0 : v0 = 0 := (Option.some.inj r0).symm
  have e1 : v1 = 1 := (Option.some.inj r1).symm
  have e2 : v2 = 0 := (Option.some.inj r2).symm
  have e3 : v3 = 0 := (Option.some.inj r3).symm
  refine ⟨_, h, ?_, rfl⟩
  rw [e0, e1, e2, e3]
  norm_num

/-- The four outcomes of the comparisons made by the scan of `getBestAction`. -/
theorem scan_cases (v0 v1 v2 v3 : ℚ) (a : Int)
    (ha : a = if v3 > max (max v0 v1) v2 then 3 else if v2 > max v0 v1 then 2
      else if v1 > v0 then 1 else 0) :
    (a = 0 ∧ v1 ≤ v0 ∧ v2 ≤ v0 ∧ v3 ≤ v0) ∨ (a = 1 ∧ v0 < v1 ∧ v2 ≤ v1 ∧ v3 ≤ v1) ∨
    (a = 2 ∧ v0 < v2 ∧ v1 < v2 ∧ v3 ≤ v2) ∨ (a = 3 ∧ v0 < v3 ∧ v1 < v3 ∧ v2 < v3) := by
  subst ha
  simp only [max_def, gt_iff_lt]
  split_ifs <;>
  first
  | (left; refine ⟨rfl, ?_, ?_, ?_⟩ <;> linarith)
  | (right; left; refine ⟨rfl, ?_, ?_, ?_⟩ <;> linarith)
  | (right; right; left; refine ⟨rfl, ?_, ?_, ?_⟩ <;> linarith)
  | (right; right; right; refine ⟨rfl, ?_, ?_, ?_⟩ <;> linarith)

/-- C20: on a well-formed table and a valid state, with `v0` the state's own entry and `v1`,
`v2`, `v3` the entries of its Down, Left and Right successors, `getBestAction(state)` returns
an action `a` in `{0, 1, 2, 3}`; a non-zero `a` has `v0 < va`, `va` is the maximum of `v1`,
`v2`, `v3` and no lower index in `{1, 2, 3}` attains it; `a = 0` exactly when none of `v1`,
`v2`, `v3` exceeds `v0`. The entry of the Up successor is never read: any agent with these
four entries gets the same action. -/
theorem getBestAction_own_and_three (N : Int) (ag : QLearning) (state : Int) (hN : 0 < N)
    (hwf : WellFormed N ag) (hs : ValidState N state) :
    ∃ (v0 v1 v2 v3 : ℚ) (a : Int), valueAt N ag state = some v0 ∧
      valueAt N ag (getNextState N state 1) = some v1 ∧
      valueAt N ag (getNextState N state 2) = some v2 ∧
      valueAt N ag (getNextState N state 3) = some v3 ∧
      getBestAction N state ag = some (a, ag) ∧
      (a = 0 ∨ a = 1 ∨ a = 2 ∨ a = 3) ∧
      (a = 1 → v0 < v1 ∧ v2 ≤ v1 ∧ v3 ≤ v1) ∧
      (a = 2 → v0 < v2 ∧ v1 < v2 ∧ v3 ≤ v2) ∧
      (a = 3 → v0 < v3 ∧ v1 < v3 ∧ v2 < v3) ∧
      (a = 0 ↔ v1 ≤ v0 ∧ v2 ≤ v0 ∧ v3 ≤ v0) ∧
      ∀ ag2 : QLearning, valueAt N ag2 state = some v0 →
        valueAt N ag2 (getNextState N state 1) = some v1 →
        valueAt N ag2 (getNextState N state 2) = some v2 →
        valueAt N ag2 (getNextState N state 3) = some v3 →
        getBestAction N state ag2 = some (a, ag2) := by
  obtain ⟨v0, v1, v2, v3, r0, r1, r2, r3⟩ := reads_of_wellFormed hN hwf hs
  have hb := getBestAction_of_reads N state ag v0 v1 v2 v3 r0 r1 r2 r3
  have hgen : ∀ ag2 : QLearning, valueAt N ag2 state = some v0 →
      valueAt N ag2 (getNextState N state 1) = some v1 →
      valueAt N ag2 (getNextState N state 2) = some v2 →
      valueAt N ag2 (getNextState N state 3) = some v3 →
      getBestAction N state ag2 =
        some (if v3 > max (max v0 v1) v2 then 3 else if v2 > max v0 v1 then 2
          else if v1 > v0 then 1 else 0, ag2) :=
    fun ag2 q0 q1 q2 q3 => getBestAction_of_reads N state ag2 v0 v1 v2 v3 q0 q1 q2 q3
  generalize hge : (if v3 > max (max v0 v1) v2 then (3 : Int) else if v2 > max v0 v1 then 2
    else if v1 > v0 then 1 else 0) = a at hb hgen
  have hscan := scan_cases v0 v1 v2 v3 a hge.symm
  refine ⟨v0, v1, v2, v3, a, r0, r1, r2, r3, hb, ?_, ?_, ?_, ?_, ?_, hgen⟩
  · rcases hscan with h | h | h | h <;> simp [h.1]
  · intro ha
    rcases hscan with h | h | h | h
    · rw [h.1] at ha; exact absurd ha (by decide)
    · exact h.2
    · rw [h.1] at ha; exact absurd ha (by decide)
    · rw [h.1] at ha; exact absurd ha (by decide)
  · intro ha
    rcases hscan with h | h | h | h
    · rw [h.1] at ha; exact absurd ha (by decide)
    · rw [h.1] at ha; exact absurd ha (by decide)
    · exact h.2
    · rw [h.1] at ha; exact absurd ha (by decide)
  · intro ha
    rcases hscan with h | h | h | h
    · rw [h.1] at ha; exact absurd ha (by decide)
    · rw [h.1] at ha; exact absurd ha (by decide)
    · rw [h.1] at ha; exact absurd ha (by decide)
    · exact h.2
  · rcases hscan with h | h | h | h
    · exact ⟨fun _ => h.2, fun _ => h.1⟩
    · refine ⟨fun ha => ?_, fun hv => ?_⟩
      · rw [h.1] at ha; exact absurd ha (by decide)
      · linarith [h.2.1, hv.1]
    · refine ⟨fun ha => ?_, fun hv => ?_⟩
      · rw [h.1] at ha; exact absurd ha (by decide)
      · linarith [h.2.1, hv.2.1]
    · refine ⟨fun ha => ?_, fun hv => ?_⟩
      · rw [h.1] at ha; exact absurd ha (by decide)
      · linarith [h.2.1, hv.2.2]

/-- C20 at state 6 of the table `upBest`: the own entry is 0 and the Down, Left and Right
successors hold 1, 0 and 0, so the action returned is 1 (Down). -/
theorem getBestAction_own_and_three_witness :
    ∃ a, getBestAction GRID_SIZE 6 upBest = some (a, upBest) ∧ a = 1 := by
  obtain ⟨v0, v1, v2, v3, a, r0, r1, r2, r3, h, hrange, -, h2, h3, h0, -⟩ :=
    getBestAction_own_and_three GRID_SIZE upBest 6 (by decide) (by decide) (by decide)
  have e0 : v0 = 0 := (Option.some.inj r0).symm
  have e1 : v1 = 1 := (Option.some.inj r1).symm
  have e2 : v2 = 0 := (Option.some.inj r2).symm
  have e3 : v3 = 0 := (Option.some.inj r3).symm
  subst e0 e1 e2 e3
  refine ⟨a, h, ?_⟩
  rcases hrange with ha | ha | ha | ha
  · have := (h0.1 ha).1
    norm_num at this
  · exact ha
  · have := (h2 ha).2.1
    norm_num at this
  · have := (h3 ha).2.1
    norm_num at this

/-! The training loop -/

theorem chooseAction_run {N : Int} {ag : QLearning} (hN : 0 < N) (hwf : WellFormed N ag)
    {s : Int} (hs : ValidState N s) (u : ℚ) (r : Int) :
    ∃ a, chooseAction N u r s ag = some (a, ag) ∧
      ((u < ag.epsilon ∧ a = r) ∨ (¬ u < ag.epsilon ∧ getBestAction N s ag = some (a, ag))) := by
  obtain ⟨v0, v1, v2, v3, r0, r1, r2, r3⟩ := reads_of_wellFormed hN hwf hs
  have hb := getBestAction_of_reads N s ag v0 v1 v2 v3 r0 r1 r2 r3
  by_cases hu : u < ag.epsilon
  · refine ⟨r, ?_, Or.inl ⟨hu, rfl⟩⟩
    simp only [chooseAction, QM.bind_apply, QM.get_apply, Option.some_bind, if_pos hu,
      QM.pure_apply]
  · refine ⟨_, ?_, Or.inr ⟨hu, hb⟩⟩
    simp only [chooseAction, QM.bind_apply, QM.get_apply, Option.some_bind, if_neg hu, hb]

theorem trainStep_run {N : Int} {ag : QLearning} (hN : 0 < N) (hwf : WellFormed N ag)
    {s : Int} (hs : ValidState N s) (u : ℚ) (r : Int) :
    ∃ a ag', chooseAction N u r s ag = some (a, ag) ∧
      updateQTable N s a (reward N (getNextState N s a)) (getNextState N s a) ag
        = some ((), ag') ∧
      trainStep N u r s ag = some (getNextState N s a, ag') ∧
      WellFormed N ag' ∧ ValidState N (getNextState N s a) ∧
      ag'.alpha = ag.alpha ∧ ag'.gamma = ag.gamma ∧ ag'.epsilon = ag.epsilon := by
  obtain ⟨a, hc, -⟩ := chooseAction_run hN hwf hs u r
  have hns := getNextState_inRange hN hs a
  obtain ⟨old, m, q, -, -, h3, h4, -, -⟩ :=
    updateQTable_run hN hwf hs hns a (reward N (getNextState N s a))
  refine ⟨a, _, hc, h3, ?_, h4, hns, rfl, rfl, rfl⟩
  simp only [trainStep, QM.bind_apply, hc, Option.some_bind, h3, QM.pure_apply]

/-- C11: with the exploration rate equal to 0, on a well-formed table and a valid state,
for every draw `u ≥ 0` (in particular every `u` in `[0, 1)`) and every candidate random
action `r`, `chooseAction(state)` is `getBestAction(state)`; it returns one action `a`, the
same for all draws, and leaves the agent as it was, so repeated calls return `a` again. -/
theorem chooseAction_greedy (N : Int) (ag : QLearning) (state : Int) (hN : 0 < N)
    (hwf : WellFormed N ag) (hs : ValidState N state) (heps : ag.epsilon = 0) :
    (∀ (u : ℚ) (r : Int), 0 ≤ u →
      chooseAction N u r state ag = getBestAction N state ag) ∧
    ∃ a, getBestAction N state ag = some (a, ag) ∧
      ∀ (u : ℚ) (r : Int), 0 ≤ u → chooseAction N u r state ag = some (a, ag) := by
  have key : ∀ (u : ℚ) (r : Int), 0 ≤ u →
      chooseAction N u r state ag = getBestAction N state ag := by
    intro u r hu
    have hlt : ¬ u < ag.epsilon := by rw [heps]; exact not_lt.mpr hu
    simp only [chooseAction, QM.bind_apply, QM.get_apply, Option.some_bind, if_neg hlt]
  obtain ⟨v0, v1, v2, v3, r0, r1, r2, r3⟩ := reads_of_wellFormed hN hwf hs
  have hb := getBestAction_of_reads N state ag v0 v1 v2 v3 r0 r1 r2 r3
  exact ⟨key, _, hb, fun u r hu => (key u r hu).trans hb⟩

/-- C11 on the table `upBest` with exploration rate 0, at state 6: the draws `(0, 3)` and
`(1/2, 2)` both give the action 1 of `getBestAction`. -/
theorem chooseAction_greedy_witness :
    chooseAction GRID_SIZE 0 3 6 greedyUpBest = some (1, greedyUpBest) ∧
    chooseAction GRID_SIZE (1 / 2) 2 6 greedyUpBest = some (1, greedyUpBest) ∧
    getBestAction GRID_SIZE 6 greedyUpBest = some (1, greedyUpBest) := by
  obtain ⟨h1, -⟩ :=
    chooseAction_greedy GRID_SIZE greedyUpBest 6 (by decide) (by decide) (by decide) rfl
  have hb : getBestAction GRID_SIZE 6 greedyUpBest = some (1, greedyUpBest) := by
    rw [getBestAction_of_reads GRID_SIZE 6 greedyUpBest 0 1 0 0 rfl rfl rfl rfl]
    norm_num
  exact ⟨(h1 0 3 (le_refl 0)).trans hb, (h1 (1 / 2) 2 (by norm_num)).trans hb, hb⟩

/-- C12: after `k` calls of `decayExplorationRate` the exploration rate is the initial one
times `0.99 ^ k`, and the table, `alpha` and `gamma` are as before. -/
theorem decayTimes_epsilon (ag : QLearning) (k : Nat) :
    decayTimes k ag =
      some ((), { qTable := ag.qTable, alpha := ag.alpha, gamma := ag.gamma,
                  epsilon := ag.epsilon * (99 / 100) ^ k }) := by
  induction k generalizing ag with
  | zero =>
    simp only [decayTimes, QM.pure_apply, pow_zero, mul_one]
  | succ k ih =>
    have hd : decayExplorationRate ag =
        some ((), { ag with epsilon := ag.epsilon * (99 / 100) }) := rfl
    simp only [decayTimes, QM.bind_apply, hd, Option.some_bind, ih]
    congr 3
    ring

/-- C13: when the start state of an episode is the terminal state `N*N - 1`, the `while`
loop performs no iteration for any draws (no action is chosen, `updateQTable` is not called,
the agent is unchanged), and the episode as a whole is one call of `decayExplorationRate`:
the table, `alpha` and `gamma` are unchanged and the exploration rate is multiplied by
0.99. -/
theorem runEpisode_terminal_start (N : Int) (ag : QLearning) (draws : List (ℚ × Int)) :
    whileLoop N draws (N * N - 1) ag = some ((N * N - 1, 0), ag) ∧
    runEpisode N (N * N - 1) draws ag =
      some ((N * N - 1, 0), { qTable := ag.qTable, alpha := ag.alpha, gamma := ag.gamma,
                              epsilon := ag.epsilon * (99 / 100) }) ∧
    runEpisode N (N * N - 1) draws ag =
      (decayExplorationRate ag).map (fun p => ((N * N - 1, 0), p.2)) := by
  have hw : whileLoop N draws (N * N - 1) ag = some ((N * N - 1, 0), ag) := by
    cases draws with
    | nil => rfl
    | cons d rest =>
      obtain ⟨u, r⟩ := d
      simp only [whileLoop, ne_eq, not_true_eq_false, if_false, QM.pure_apply]
  have hd : decayExplorationRate ag =
      some ((), { ag with epsilon := ag.epsilon * (99 / 100) }) := rfl
  refine ⟨hw, ?_, ?_⟩
  · simp only [runEpisode, QM.bind_apply, hw, Option.some_bind, if_true, hd, QM.pure_apply]
  · simp only [runEpisode, QM.bind_apply, hw, Option.some_bind, if_true, hd, QM.pure_apply,
      Option.map_some']

/-- C15: on a table of `N` rows of `N` entries, for valid `state` and `nextState` and any
action, `getBestAction`, `getMaxQValue` and `updateQTable` return (no access is outside the
table), and one training step with any draws returns a state in `[0, N*N)` and a table that
is again of `N` rows of `N` entries. -/
theorem no_out_of_bounds (N : Int) (ag : QLearning) (state action : Int) (rew : ℚ)
    (nextState : Int) (u : ℚ) (r : Int) (hN : 0 < N) (hwf : WellFormed N ag)
    (hs : ValidState N state) (hns : ValidState N nextState) :
    getBestAction N state ag ≠ none ∧ getMaxQValue N state ag ≠ none ∧
    updateQTable N state action rew nextState ag ≠ none ∧
    ∃ s' ag', trainStep N u r state ag = some (s', ag') ∧ ValidState N s' ∧
      WellFormed N ag' := by
  obtain ⟨v0, v1, v2, v3, r0, r1, r2, r3⟩ := reads_of_wellFormed hN hwf hs
  obtain ⟨old, m, q, -, -, h3, -, -, -⟩ := updateQTable_run hN hwf hs hns action rew
  obtain ⟨a, ag', -, -, ht, hwf', hv, -⟩ := trainStep_run hN hwf hs u r
  refine ⟨?_, ?_, ?_, _, _, ht, hv, hwf'⟩
  · rw [getBestAction_of_reads N state ag v0 v1 v2 v3 r0 r1 r2 r3]; exact Option.some_ne_none _
  · rw [getMaxQValue_of_reads N state ag v0 v1 v2 v3 r0 r1 r2 r3]; exact Option.some_ne_none _
  · rw [h3]; exact Option.some_ne_none _

/-- C15 on the table `upBest` at state 6: a greedy step (draw `u = 1/2`) takes Down to the
state 11, a valid state, and the table keeps its shape. -/
theorem no_out_of_bounds_witness :
    ∃ ag', trainStep GRID_SIZE (1 / 2) 0 6 upBest = some (11, ag') ∧
      WellFormed GRID_SIZE ag' := by
  obtain ⟨-, -, -, s', ag', ht, -, hwf'⟩ :=
    no_out_of_bounds GRID_SIZE upBest 6 1 0 11 (1 / 2) 0 (by decide) (by decide) (by decide)
      (by decide)
  have hs' : s' = 11 := by
    obtain ⟨a, ag2, hc, -, ht2, -⟩ :=
      trainStep_run (by decide : (0 : Int) < GRID_SIZE) (by decide : WellFormed GRID_SIZE upBest)
        (by decide : ValidState GRID_SIZE 6) (1 / 2) 0
    have hc2 : chooseAction GRID_SIZE (1 / 2) 0 6 upBest = some (1, upBest) := by
      have hlt : ¬ ((1 / 2 : ℚ) < upBest.epsilon) := by norm_num [upBest]
      simp only [chooseAction, QM.bind_apply, QM.get_apply, Option.some_bind, if_neg hlt]
      rw [getBestAction_of_reads GRID_SIZE 6 upBest 0 1 0 0 rfl rfl rfl rfl]
      norm_num
    rw [hc2] at hc
    have ha : a = 1 := (congrArg Prod.fst (Option.some.inj hc)).symm
    subst ha
    rw [ht2] at ht
    exact (congrArg Prod.fst (Option.some.inj ht)).symm
  subst hs'
  exact ⟨ag', ht, hwf'⟩

/-! Invariants of the training loop -/

theorem whileLoop_invariant {N : Int} (hN : 0 < N) {P : Int → QLearning → Prop}
    (hP : StepInvariant N P) (draws : List (ℚ × Int)) :
    ∀ (s : Int) (ag : QLearning), WellFormed N ag → P s ag → ValidState N s →
      ∃ res ag', whileLoop N draws s ag = some (res, ag') ∧ WellFormed N ag' ∧
        P res.1 ag' ∧ ValidState N res.1 ∧ ag'.epsilon = ag.epsilon := by
  induction draws with
  | nil =>
    intro s ag hwf hp hs
    exact ⟨(s, 0), ag, rfl, hwf, hp, hs, rfl⟩
  | cons d rest ih =>
    intro s ag hwf hp hs
    obtain ⟨u, r⟩ := d
    by_cases hterm : s = N * N - 1
    · refine ⟨(s, 0), ag, ?_, hwf, hp, hs, rfl⟩
      simp only [whileLoop, ne_eq, hterm, not_true_eq_false, if_false, QM.pure_apply]
    · obtain ⟨a, ag1, -, hupd, hstep, hwf1, hns, -, -, heps⟩ := trainStep_run hN hwf hs u r
      have hp1 : P (getNextState N s a) ag1 := hP ag s a ag1 hwf hp hs hterm hupd
      obtain ⟨res, ag', hrun, hwf', hp', hres, heps'⟩ := ih _ ag1 hwf1 hp1 hns
      refine ⟨(res.1, res.2 + 1), ag', ?_, hwf', hp', hres, heps'.trans heps⟩
      simp only [whileLoop, ne_eq, hterm, not_false_eq_true, if_true, QM.bind_apply, hstep,
        Option.some_bind, hrun, QM.pure_apply]

theorem runEpisode_invariant {N : Int} (hN : 0 < N) {P : QLearning → Prop}
    (hP : StepInvariant N (fun _ => P)) (hE : EpsilonFree P) (draws : List (ℚ × Int)) (s : Int)
    (ag : QLearning) (hwf : WellFormed N ag) (hp : P ag) (hs : ValidState N s) :
    ∃ res ag1 ag', whileLoop N draws s ag = some (res, ag1) ∧ WellFormed N ag1 ∧ P ag1 ∧
      runEpisode N s draws ag = some (res, ag') ∧ WellFormed N ag' ∧ P ag' ∧
      ag'.qTable = ag1.qTable ∧ ag'.alpha = ag1.alpha ∧ ag'.gamma = ag1.gamma := by
  obtain ⟨res, ag1, hrun, hwf1, hp1, -, -⟩ := whileLoop_invariant hN hP draws s ag hwf hp hs
  by_cases hterm : res.1 = N * N - 1
  · have hd : decayExplorationRate ag1 =
        some ((), { ag1 with epsilon := ag1.epsilon * (99 / 100) }) := rfl
    refine ⟨res, ag1, { ag1 with epsilon := ag1.epsilon * (99 / 100) }, hrun, hwf1, hp1, ?_,
      hwf1, hE ag1 _ hp1, rfl, rfl, rfl⟩
    simp only [runEpisode, QM.bind_apply, hrun, Option.some_bind, if_pos hterm, hd,
      QM.pure_apply]
  · refine ⟨res, ag1, ag1, hrun, hwf1, hp1, ?_, hwf1, hp1, rfl, rfl, rfl⟩
    simp only [runEpisode, QM.bind_apply, hrun, Option.some_bind, if_neg hterm,
      QM.pure_apply]

theorem trainLoop_invariant {N : Int} (hN : 0 < N) {P : QLearning → Prop}
    (hP : StepInvariant N (fun _ => P)) (hE : EpsilonFree P) (run : List (Int × List (ℚ × Int))) :
    ∀ ag : QLearning, WellFormed N ag → P ag → ValidStarts N run →
      ∃ b ag', trainLoop N run ag = some (b, ag') ∧ WellFormed N ag' ∧ P ag' := by
  induction run with
  | nil =>
    intro ag hwf hp _
    exact ⟨true, ag, rfl, hwf, hp⟩
  | cons e rest ih =>
    intro ag hwf hp hv
    obtain ⟨start, draws⟩ := e
    have hs : ValidState N start := hv (start, draws) (List.mem_cons_self _ _)
    have hv' : ValidStarts N rest := fun e he => hv e (List.mem_cons_of_mem _ he)
    obtain ⟨res, ag1, ag2, -, -, -, hrun, hwf2, hp2, -⟩ :=
      runEpisode_invariant hN hP hE draws start ag hwf hp hs
    by_cases hterm : res.1 = N * N - 1
    · obtain ⟨b, ag', htrain, hwf', hp'⟩ := ih ag2 hwf2 hp2 hv'
      refine ⟨b, ag', ?_, hwf', hp'⟩
      simp only [trainLoop, QM.bind_apply, hrun, Option.some_bind, if_pos hterm, htrain]
    · refine ⟨false, ag2, ?_, hwf2, hp2⟩
      simp only [trainLoop, QM.bind_apply, hrun, Option.some_bind, if_neg hterm,
        QM.pure_apply]

/-! Entries of the table -/

theorem allEntries_iff (p : ℚ → Prop) (ag : QLearning) :
    AllEntries p ag ↔ ∀ (i j : Int) (v : ℚ), entryAt ag.qTable i j = some v → p v := by
  constructor
  · intro h i j v hv
    obtain ⟨-, row, hrow, hcell⟩ := entryAt_some hv
    exact h row (List.getElem?_mem hrow) v (List.getElem?_mem hcell)
  · intro h row hrow v hv
    obtain ⟨n, hn⟩ := List.getElem?_of_mem hrow
    obtain ⟨m, hm⟩ := List.getElem?_of_mem hv
    apply h (n : Int) (m : Int) v
    have hneg : ¬ ((n : Int) < 0 ∨ (m : Int) < 0) := by omega
    simp only [entryAt, hneg, if_false, Int.toNat_ofNat, hn, hm]

theorem new_wellFormed (N : Int) (alpha gamma epsilon : ℚ) :
    WellFormed N (QLearning.new N alpha gamma epsilon) := by
  constructor
  · simp [QLearning.new]
  · intro row hrow
    simp only [QLearning.new, List.mem_replicate] at hrow
    rw [hrow.2]
    simp

theorem new_allEntries (N : Int) (alpha gamma epsilon : ℚ) :
    AllEntries (fun v => v = 0) (QLearning.new N alpha gamma epsilon) := by
  intro row hrow v hv
  simp only [QLearning.new, List.mem_replicate] at hrow
  rw [hrow.2] at hv
  exact (List.mem_replicate.1 hv).2

theorem terminal_valid {N : Int} (hN : 0 < N) : ValidState N (N * N - 1) := by
  constructor
  · nlinarith
  · linarith

theorem getMaxQValue_mem {N : Int} {ag : QLearning} (hN : 0 < N) (hwf : WellFormed N ag)
    {s : Int} (hs : ValidState N s) :
    ∃ (m : ℚ) (i j : Int), getMaxQValue N s ag = some (m, ag) ∧
      entryAt ag.qTable i j = some m := by
  obtain ⟨v0, v1, v2, v3, r0, r1, r2, r3⟩ := reads_of_wellFormed hN hwf hs
  have hm := getMaxQValue_of_reads N s ag v0 v1 v2 v3 r0 r1 r2 r3
  rcases max_choice (max (max v0 v1) v2) v3 with h3 | h3
  · rcases max_choice (max v0 v1) v2 with h2 | h2
    · rcases max_choice v0 v1 with h1 | h1
      · exact ⟨_, _, _, hm, by rw [h3, h2, h1]; exact r0⟩
      · exact ⟨_, _, _, hm, by rw [h3, h2, h1]; exact r1⟩
    · exact ⟨_, _, _, hm, by rw [h3, h2]; exact r2⟩
  · exact ⟨_, _, _, hm, by rw [h3]; exact r3⟩

/-- What a returned `updateQTable` has done, on a well-formed table and valid states. -/
theorem updateQTable_facts {N : Int} {ag ag' : QLearning} (hN : 0 < N)
    (hwf : WellFormed N ag) {s ns : Int} (hs : ValidState N s) (hns : ValidState N ns)
    {a : Int} {r : ℚ} (h : updateQTable N s a r ns ag = some ((), ag')) :
    ∃ (old m : ℚ) (i j : Int), valueAt N ag s = some old ∧
      entryAt ag.qTable i j = some m ∧
      ag'.alpha = ag.alpha ∧ ag'.gamma = ag.gamma ∧ ag'.epsilon = ag.epsilon ∧
      valueAt N ag' s = some (old + ag.alpha * (r + ag.gamma * m - old)) ∧
      (∀ i2 j2 : Int, (i2 ≠ s.tdiv N ∨ j2 ≠ s.tmod N) →
        entryAt ag'.qTable i2 j2 = entryAt ag.qTable i2 j2) ∧
      (∀ t : Int, t ≠ s → valueAt N ag' t = valueAt N ag t) := by
  obtain ⟨old, m, q, h1, h2, h3, -, h5, h6⟩ := updateQTable_run hN hwf hs hns a r
  obtain ⟨m2, i, j, hm2, hmem⟩ := getMaxQValue_mem hN hwf hns
  have hmm : m2 = m := by
    rw [hm2] at h2
    exact congrArg Prod.fst (Option.some.inj h2)
  subst hmm
  rw [h3] at h
  have hag : ag' = { ag with qTable := q } := (congrArg Prod.snd (Option.some.inj h)).symm
  subst hag
  refine ⟨old, m2, i, j, h1, hmem, rfl, rfl, rfl, h5, h6, ?_⟩
  intro t hne
  apply h6
  by_contra hcon
  push_neg at hcon
  exact hne (decode_injective hcon.1 hcon.2)

theorem allEntries_update {N : Int} {ag ag' : QLearning} (hN : 0 < N)
    (hwf : WellFormed N ag) {s ns : Int} (hs : ValidState N s) (hns : ValidState N ns)
    {a : Int} {r : ℚ} (h : updateQTable N s a r ns ag = some ((), ag')) {p : ℚ → Prop}
    (hall : AllEntries p ag)
    (hnew : ∀ old m : ℚ, p old → p m → p (old + ag.alpha * (r + ag.gamma * m - old))) :
    AllEntries p ag' := by
  obtain ⟨old, m, i, j, hold, hm, -, -, -, hval, hother, -⟩ :=
    updateQTable_facts hN hwf hs hns h
  have hall' := (allEntries_iff p ag).1 hall
  rw [allEntries_iff]
  intro i2 j2 v hv
  by_cases hij : i2 = s.tdiv N ∧ j2 = s.tmod N
  · obtain ⟨e1, e2⟩ := hij
    subst e1 e2
    have hv2 : some v = some (old + ag.alpha * (r + ag.gamma * m - old)) := hv.symm.trans hval
    rw [Option.some.inj hv2]
    exact hnew old m (hall' _ _ _ hold) (hall' _ _ _ hm)
  · have hne : i2 ≠ s.tdiv N ∨ j2 ≠ s.tmod N := by
      by_contra hcon
      push_neg at hcon
      exact hij hcon
    rw [hother i2 j2 hne] at hv
    exact hall' _ _ _ hv

theorem reward_zero_or_one (N ns : Int) : reward N ns = 0 ∨ reward N ns = 1 := by
  unfold reward
  split_ifs
  · exact Or.inr rfl
  · exact Or.inl rfl

/-- C17: from the zero-initialised table, for every run of the training loop (any number of
episodes with valid start states, any draws, followed as far as the draws reach, so also a
run that stands inside an episode), the loop returns and the entry of the terminal state
`N*N - 1` is still 0: the `while` loop calls `updateQTable` only from a state other than
`N*N - 1`, and such a call leaves the entry of `N*N - 1` unchanged. -/
theorem terminal_entry_zero (N : Int) (alpha gamma epsilon : ℚ)
    (run : List (Int × List (ℚ × Int))) (hN : 0 < N) (hv : ValidStarts N run) :
    (∃ b ag', trainLoop N run (QLearning.new N alpha gamma epsilon) = some (b, ag') ∧
      valueAt N ag' (N * N - 1) = some 0) ∧
    StepInvariant N (fun _ ag => valueAt N ag (N * N - 1) = some 0) := by
  have hstep : StepInvariant N (fun _ ag => valueAt N ag (N * N - 1) = some 0) := by
    intro ag s a ag' hwf hp hs hterm hupd
    obtain ⟨old, m, i, j, -, -, -, -, -, -, -, hother⟩ :=
      updateQTable_facts hN hwf hs (getNextState_inRange hN hs a) hupd
    show valueAt N ag' (N * N - 1) = some 0
    rw [hother (N * N - 1) (Ne.symm hterm)]
    exact hp
  have hfree : EpsilonFree (fun ag => valueAt N ag (N * N - 1) = some 0) :=
    fun ag e h => h
  have hinit : valueAt N (QLearning.new N alpha gamma epsilon) (N * N - 1) = some 0 := by
    obtain ⟨v, hval⟩ :=
      valueAt_of_wellFormed hN (new_wellFormed N alpha gamma epsilon) (terminal_valid hN)
    have hz := (allEntries_iff _ _).1 (new_allEntries N alpha gamma epsilon) _ _ _ hval
    rw [hval, hz]
  obtain ⟨b, ag', hrun, -, hp⟩ :=
    trainLoop_invariant hN hstep hfree run _ (new_wellFormed N alpha gamma epsilon) hinit hv
  exact ⟨⟨b, ag', hrun, hp⟩, hstep⟩

theorem bound_step {alpha gamma old m r : ℚ} (ha0 : 0 ≤ alpha) (ha1 : alpha ≤ 1)
    (hg0 : 0 ≤ gamma) (hg1 : gamma < 1) (hr : r = 0 ∨ r = 1)
    (hold : 0 ≤ old ∧ old ≤ 1 / (1 - gamma)) (hm : 0 ≤ m ∧ m ≤ 1 / (1 - gamma)) :
    0 ≤ old + alpha * (r + gamma * m - old) ∧
      old + alpha * (r + gamma * m - old) ≤ 1 / (1 - gamma) := by
  have hpos : 0 < 1 - gamma := by linarith
  have hB : (1 / (1 - gamma)) * (1 - gamma) = 1 := by field_simp
  generalize 1 / (1 - gamma) = B at *
  have hr0 : 0 ≤ r := by rcases hr with h | h <;> simp [h]
  have hr1 : r ≤ 1 := by rcases hr with h | h <;> simp [h]
  have e : old + alpha * (r + gamma * m - old) = (1 - alpha) * old + alpha * (r + gamma * m) := by
    ring
  have h1 : 0 ≤ gamma * m := mul_nonneg hg0 hm.1
  have h2 : gamma * m ≤ gamma * B := mul_le_mul_of_nonneg_left hm.2 hg0
  have h3 : r + gamma * m ≤ B := by nlinarith
  have h4 : 0 ≤ 1 - alpha := by linarith
  rw [e]
  constructor
  · have := mul_nonneg h4 hold.1
    have := mul_nonneg ha0 (add_nonneg hr0 h1)
    linarith
  · have := mul_le_mul_of_nonneg_left hold.2 h4
    have := mul_le_mul_of_nonneg_left h3 ha0
    nlinarith

/-- C18: for `alpha` in `[0, 1]`, `gamma` in `[0, 1)` and a reward 0 or 1, if every entry of
a well-formed table lies in `[0, 1/(1-gamma)]` then `updateQTable` on valid states returns a
table whose every entry lies in `[0, 1/(1-gamma)]`; hence after every run of the training
loop from the zero-initialised table (any episodes with valid start states, any draws)
every entry lies in that interval. -/
theorem entries_bounded (N : Int) (alpha gamma : ℚ) (hN : 0 < N) (ha0 : 0 ≤ alpha)
    (ha1 : alpha ≤ 1) (hg0 : 0 ≤ gamma) (hg1 : gamma < 1) :
    (∀ (ag : QLearning) (state action : Int) (rew : ℚ) (nextState : Int),
      WellFormed N ag → ValidState N state → ValidState N nextState →
      ag.alpha = alpha → ag.gamma = gamma → (rew = 0 ∨ rew = 1) →
      AllEntries (fun v => 0 ≤ v ∧ v ≤ 1 / (1 - gamma)) ag →
      ∃ ag', updateQTable N state action rew nextState ag = some ((), ag') ∧
        AllEntries (fun v => 0 ≤ v ∧ v ≤ 1 / (1 - gamma)) ag') ∧
    (∀ (epsilon : ℚ) (run : List (Int × List (ℚ × Int))), ValidStarts N run →
      ∃ b ag', trainLoop N run (QLearning.new N alpha gamma epsilon) = some (b, ag') ∧
        AllEntries (fun v => 0 ≤ v ∧ v ≤ 1 / (1 - gamma)) ag') := by
  have hupd : ∀ (ag ag' : QLearning) (s a : Int) (rew : ℚ) (ns : Int),
      WellFormed N ag → ValidState N s → ValidState N ns →
      ag.alpha = alpha → ag.gamma = gamma → (rew = 0 ∨ rew = 1) →
      AllEntries (fun v => 0 ≤ v ∧ v ≤ 1 / (1 - gamma)) ag →
      updateQTable N s a rew ns ag = some ((), ag') →
      AllEntries (fun v => 0 ≤ v ∧ v ≤ 1 / (1 - gamma)) ag' := by
    intro ag ag' s a rew ns hwf hs hns hal hga hr hall h
    apply allEntries_update hN hwf hs hns h hall
    intro old m hold hm
    rw [hal, hga]
    exact bound_step ha0 ha1 hg0 hg1 hr hold hm
  constructor
  · intro ag s a rew ns hwf hs hns hal hga hr hall
    obtain ⟨old, m, q, -, -, h3, -, -, -⟩ := updateQTable_run hN hwf hs hns a rew
    exact ⟨_, h3, hupd ag _ s a rew ns hwf hs hns hal hga hr hall h3⟩
  · intro epsilon run hv
    have hstep : StepInvariant N (fun _ ag => ag.alpha = alpha ∧ ag.gamma = gamma ∧
        AllEntries (fun v => 0 ≤ v ∧ v ≤ 1 / (1 - gamma)) ag) := by
      intro ag s a ag' hwf hp hs hterm h
      obtain ⟨hal, hga, hall⟩ := hp
      have hns := getNextState_inRange hN hs a
      obtain ⟨old, m, i, j, -, -, e1, e2, -⟩ := updateQTable_facts hN hwf hs hns h
      exact ⟨e1.trans hal, e2.trans hga,
        hupd ag ag' s a _ _ hwf hs hns hal hga (reward_zero_or_one N _) hall h⟩
    have hfree : EpsilonFree (fun ag => ag.alpha = alpha ∧ ag.gamma = gamma ∧
        AllEntries (fun v => 0 ≤ v ∧ v ≤ 1 / (1 - gamma)) ag) :=
      fun ag e h => h
    have hinit : AllEntries (fun v => 0 ≤ v ∧ v ≤ 1 / (1 - gamma))
        (QLearning.new N alpha gamma epsilon) := by
      intro row hrow v hv
      have hz : v = 0 := new_allEntries N alpha gamma epsilon row hrow v hv
      have hpos : 0 < 1 - gamma := by linarith
      rw [hz]
      exact ⟨le_refl 0, le_of_lt (one_div_pos.mpr hpos)⟩
    obtain ⟨b, ag', hrun, -, -, -, hall⟩ :=
      trainLoop_invariant hN hstep hfree run _ (new_wellFormed N alpha gamma epsilon)
        ⟨rfl, rfl, hinit⟩ hv
    exact ⟨b, ag', hrun, hall⟩

/-- C17 on the run `shortRun` of the agent of main: the run is complete and the entry of the
terminal state 24 is 0 at its end. -/
theorem terminal_entry_zero_witness :
    ∃ ag', trainLoop GRID_SIZE shortRun mainAgent = some (true, ag') ∧
      valueAt GRID_SIZE ag' (GRID_SIZE * GRID_SIZE - 1) = some 0 := by
  obtain ⟨⟨b, ag', hrun, hval⟩, -⟩ :=
    terminal_entry_zero GRID_SIZE (1 / 2) (9 / 10) (1 / 10) shortRun (by decide) (by decide)
  have hb : (trainLoop GRID_SIZE shortRun mainAgent).map Prod.fst = some true := by decide!
  have hrun' : trainLoop GRID_SIZE shortRun mainAgent = some (b, ag') := hrun
  rw [hrun'] at hb
  have hbt : b = true := Option.some.inj hb
  subst hbt
  exact ⟨ag', hrun', hval⟩

/-- C18 with the parameters of main (`1/(1-gamma) = 10`): the update of `upBest` at state 6
keeps the entries in `[0, 10]`, and so does the run `shortRun` from the zero table. -/
theorem entries_bounded_witness :
    (∃ ag', updateQTable GRID_SIZE 6 1 0 11 upBest = some ((), ag') ∧
      AllEntries (fun v => 0 ≤ v ∧ v ≤ 1 / (1 - 9 / 10)) ag') ∧
    (∃ b ag', trainLoop GRID_SIZE shortRun mainAgent = some (b, ag') ∧
      AllEntries (fun v => 0 ≤ v ∧ v ≤ 1 / (1 - 9 / 10)) ag') :=
  have h := entries_bounded GRID_SIZE (1 / 2) (9 / 10) (by decide) (by norm_num) (by norm_num)
    (by norm_num) (by norm_num)
  ⟨h.1 upBest 6 1 0 11 (by decide) (by decide) (by decide) rfl rfl (Or.inl rfl) (by decide!),
    h.2 (1 / 10) shortRun (by decide)⟩

/-! The cells next to the terminal state on the 5 x 5 grid -/

theorem adjacent_of_step {s a : Int} (hs : ValidState 5 s) (hterm : s ≠ 24)
    (h : getNextState 5 s a = 24) : s = 19 ∨ s = 23 := by
  rw [getNextState_eq (by norm_num) hs] at h
  obtain ⟨h0, h1⟩ := hs
  split_ifs at h <;> dsimp only at h <;> omega

theorem positive_kept {ag ag' : QLearning} (hwf : WellFormed 5 ag) {s ns : Int}
    (hs : ValidState 5 s) (hns : ValidState 5 ns) {a : Int} {r : ℚ} (hr : r = 0 ∨ r = 1)
    (h : updateQTable 5 s a r ns ag = some ((), ag')) (hal : ag.alpha = 1 / 2)
    (hga : ag.gamma = 9 / 10) (hall : AllEntries (fun v => 0 ≤ v) ag) {t : Int}
    (hpos : PositiveAt 5 t ag) : PositiveAt 5 t ag' := by
  obtain ⟨old, m, i, j, hold, hm, -, -, -, hval, -, hother⟩ :=
    updateQTable_facts (by norm_num) hwf hs hns h
  obtain ⟨v, hv, hvpos⟩ := hpos
  by_cases hts : t = s
  · subst hts
    have hov : old = v := Option.some.inj (hold.symm.trans hv)
    have hm0 : 0 ≤ m := (allEntries_iff _ ag).1 hall _ _ _ hm
    refine ⟨_, hval, ?_⟩
    rw [hal, hga, hov]
    rcases hr with h0 | h1
    · rw [h0]; linarith
    · rw [h1]; linarith
  · exact ⟨v, (hother t hts).trans hv, hvpos⟩

theorem positive_made {ag ag' : QLearning} (hwf : WellFormed 5 ag) {s : Int}
    (hs : ValidState 5 s) {a : Int}
    (h : updateQTable 5 s a 1 24 ag = some ((), ag')) (hal : ag.alpha = 1 / 2)
    (hga : ag.gamma = 9 / 10) (hall : AllEntries (fun v => 0 ≤ v) ag) :
    PositiveAt 5 s ag' := by
  obtain ⟨old, m, i, j, hold, hm, -, -, -, hval, -, -⟩ :=
    updateQTable_facts (by norm_num) hwf hs (by decide) h
  have hm0 : 0 ≤ m := (allEntries_iff _ ag).1 hall _ _ _ hm
  have hold0 : 0 ≤ old := (allEntries_iff _ ag).1 hall _ _ _ hold
  refine ⟨_, hval, ?_⟩
  rw [hal, hga]
  linarith

theorem step_positive (f1 f2 : Prop) :
    StepInvariant 5 (fun s ag =>
      (ag.alpha = 1 / 2 ∧ ag.gamma = 9 / 10 ∧ AllEntries (fun v => 0 ≤ v) ag) ∧
      (f1 → PositiveAt 5 23 ag ∨ PositiveAt 5 19 ag) ∧
      (f2 → s = 24 → PositiveAt 5 23 ag ∨ PositiveAt 5 19 ag)) := by
  intro ag s a ag' hwf hp hs hterm h
  obtain ⟨⟨hal, hga, hall⟩, hk, -⟩ := hp
  have hterm' : s ≠ 24 := by
    intro hc
    apply hterm
    rw [hc]
    norm_num
  have hns := getNextState_inRange (by norm_num : (0 : Int) < 5) hs a
  have hr := reward_zero_or_one 5 (getNextState 5 s a)
  obtain ⟨old, m, i, j, -, -, e1, e2, -⟩ := updateQTable_facts (by norm_num) hwf hs hns h
  refine ⟨⟨e1.trans hal, e2.trans hga, ?_⟩, ?_, ?_⟩
  · apply allEntries_update (by norm_num) hwf hs hns h hall
    intro old m hold hm
    rw [hal, hga]
    rcases hr with h0 | h1
    · rw [h0]; show (0 : ℚ) ≤ _; have := hold; have := hm; linarith
    · rw [h1]; show (0 : ℚ) ≤ _; have := hold; have := hm; linarith
  · intro hf
    rcases hk hf with hp23 | hp19
    · exact Or.inl (positive_kept hwf hs hns hr h hal hga hall hp23)
    · exact Or.inr (positive_kept hwf hs hns hr h hal hga hall hp19)
  · intro _ hn
    have hrew : reward 5 (getNextState 5 s a) = 1 := by
      rw [hn]
      simp [reward]
    rw [hrew, hn] at h
    have hmade := positive_made hwf hs h hal hga hall
    rcases adjacent_of_step hs hterm' hn with h19 | h23
    · rw [h19] at hmade
      exact Or.inr hmade
    · rw [h23] at hmade
      exact Or.inl hmade

theorem trainLoop_positive (run : List (Int × List (ℚ × Int))) :
    ∀ ag : QLearning, WellFormed 5 ag →
      (ag.alpha = 1 / 2 ∧ ag.gamma = 9 / 10 ∧ AllEntries (fun v => 0 ≤ v) ag) →
      ValidStarts 5 run →
      ((PositiveAt 5 23 ag ∨ PositiveAt 5 19 ag) ∨ ∃ e ∈ run, e.1 ≠ 24) →
      ∀ ag' : QLearning, trainLoop 5 run ag = some (true, ag') →
      PositiveAt 5 23 ag' ∨ PositiveAt 5 19 ag' := by
  induction run with
  | nil =>
    intro ag _ _ _ hdisj ag' h
    have hag : ag = ag' := congrArg Prod.snd (Option.some.inj h)
    subst hag
    rcases hdisj with hpos | ⟨e, he, -⟩
    · exact hpos
    · cases he
  | cons e rest ih =>
    intro ag hwf hp hv hdisj ag' h
    obtain ⟨start, draws⟩ := e
    have hs : ValidState 5 start := hv (start, draws) (List.mem_cons_self _ _)
    have hv' : ValidStarts 5 rest := fun e he => hv e (List.mem_cons_of_mem _ he)
    obtain ⟨res, ag1, hw, hwf1, hM, -, -⟩ :=
      whileLoop_invariant (by norm_num : (0 : Int) < 5)
        (step_positive (PositiveAt 5 23 ag ∨ PositiveAt 5 19 ag) (start ≠ 24)) draws start ag hwf
        ⟨hp, id, fun h1 h2 => absurd h2 h1⟩ hs
    obtain ⟨hp1, hk, hj⟩ := hM
    have hd : decayExplorationRate ag1 =
        some ((), { ag1 with epsilon := ag1.epsilon * (99 / 100) }) := rfl
    by_cases hterm : res.1 = 5 * 5 - 1
    · have hepi : runEpisode 5 start draws ag =
          some (res, { ag1 with epsilon := ag1.epsilon * (99 / 100) }) := by
        simp only [runEpisode, QM.bind_apply, hw, Option.some_bind, if_pos hterm, hd,
          QM.pure_apply]
      have htl : trainLoop 5 ((start, draws) :: rest) ag =
          trainLoop 5 rest { ag1 with epsilon := ag1.epsilon * (99 / 100) } := by
        simp only [trainLoop, QM.bind_apply, hepi, Option.some_bind, if_pos hterm]
      rw [htl] at h
      have hres : res.1 = 24 := by rw [hterm]; norm_num
      refine ih { ag1 with epsilon := ag1.epsilon * (99 / 100) } hwf1 hp1 hv' ?_ ag' h
      rcases hdisj with hpos | ⟨e, he, hne⟩
      · exact Or.inl (hk hpos)
      · rcases List.mem_cons.1 he with heq | hmem
        · subst heq
          exact Or.inl (hj hne hres)
        · exact Or.inr ⟨e, hmem, hne⟩
    · have hepi : runEpisode 5 start draws ag = some (res, ag1) := by
        simp only [runEpisode, QM.bind_apply, hw, Option.some_bind, if_neg hterm,
          QM.pure_apply]
      have htl : trainLoop 5 ((start, draws) :: rest) ag = some (false, ag1) := by
        simp only [trainLoop, QM.bind_apply, hepi, Option.some_bind, if_neg hterm,
          QM.pure_apply]
      rw [htl] at h
      have hb : false = true := congrArg Prod.fst (Option.some.inj h)
      cases hb

/-- C14: on the 5 x 5 grid with `alpha = 0.5` and `gamma = 0.9`, from the zero-initialised
table, for every run of the training loop (any number of episodes with valid start states,
any exploration rate, any draws) that completes, i.e. every episode reaches the terminal
state, and in which some episode starts in a non-terminal state, at the end the entry of
state 23 (row 4, column 3) or the entry of state 19 (row 3, column 4) is strictly
positive. -/
theorem adjacent_cell_positive (epsilon : ℚ) (run : List (Int × List (ℚ × Int)))
    (ag' : QLearning) (hv : ValidStarts GRID_SIZE run)
    (hne : ∃ e ∈ run, e.1 ≠ GRID_SIZE * GRID_SIZE - 1)
    (hrun : trainLoop GRID_SIZE run (QLearning.new GRID_SIZE (1 / 2) (9 / 10) epsilon)
      = some (true, ag')) :
    PositiveAt GRID_SIZE 23 ag' ∨ PositiveAt GRID_SIZE 19 ag' := by
  have hinit : AllEntries (fun v => 0 ≤ v) (QLearning.new 5 (1 / 2) (9 / 10) epsilon) := by
    intro row hrow v hv
    have hz : v = 0 := new_allEntries 5 (1 / 2) (9 / 10) epsilon row hrow v hv
    rw [hz]
  obtain ⟨e, he, hne'⟩ := hne
  have hne24 : e.1 ≠ 24 := by
    intro hc
    apply hne'
    rw [hc]
    decide
  exact trainLoop_positive run _ (new_wellFormed 5 (1 / 2) (9 / 10) epsilon)
    ⟨rfl, rfl, hinit⟩ hv (Or.inr ⟨e, he, hne24⟩) ag' hrun

/-- C14 on the run `shortRun` of the agent of main: the run completes, its first episode
starts at state 23, and at the end the entry of state 23 is `1/2`. -/
theorem adjacent_cell_positive_witness :
    ∃ ag2, trainLoop GRID_SIZE shortRun mainAgent = some (true, ag2) ∧
      valueAt GRID_SIZE ag2 23 = some (1 / 2) ∧
      (PositiveAt GRID_SIZE 23 ag2 ∨ PositiveAt GRID_SIZE 19 ag2) :=
  have hrun : trainLoop GRID_SIZE shortRun mainAgent = some (true, afterShortRun) := by
    decide!
  ⟨_, hrun, rfl,
    adjacent_cell_positive (1 / 10) shortRun _ (by decide)
      ⟨(23, [(0, 3)]), (by decide), (by decide)⟩ hrun⟩

/-! Episodes that do not end -/

theorem rowZero_step (alpha gamma epsilon : ℚ) (s : Int) (h0 : 0 ≤ s) (h4 : s ≤ 4) (u : ℚ)
    (r : Int) (hu : ¬ u < epsilon) :
    chooseAction 5 u r s (QLearning.new 5 alpha gamma epsilon)
      = some (0, QLearning.new 5 alpha gamma epsilon) ∧
    getNextState 5 s 0 = s ∧ reward 5 s = 0 ∧
    trainStep 5 u r s (QLearning.new 5 alpha gamma epsilon)
      = some (s, QLearning.new 5 alpha gamma epsilon) := by
  have hreads : valueAt 5 (QLearning.new 5 alpha gamma epsilon) s = some 0 ∧
      valueAt 5 (QLearning.new 5 alpha gamma epsilon) (getNextState 5 s 1) = some 0 ∧
      valueAt 5 (QLearning.new 5 alpha gamma epsilon) (getNextState 5 s 2) = some 0 ∧
      valueAt 5 (QLearning.new 5 alpha gamma epsilon) (getNextState 5 s 3) = some 0 := by
    interval_cases s <;> exact ⟨rfl, rfl, rfl, rfl⟩
  obtain ⟨q0, q1, q2, q3⟩ := hreads
  have hbest : getBestAction 5 s (QLearning.new 5 alpha gamma epsilon)
      = some (0, QLearning.new 5 alpha gamma epsilon) := by
    rw [getBestAction_of_reads 5 s (QLearning.new 5 alpha gamma epsilon) 0 0 0 0 q0 q1 q2 q3]
    simp
  have hmax : getMaxQValue 5 s (QLearning.new 5 alpha gamma epsilon)
      = some (0, QLearning.new 5 alpha gamma epsilon) := by
    rw [getMaxQValue_of_reads 5 s (QLearning.new 5 alpha gamma epsilon) 0 0 0 0 q0 q1 q2 q3]
    simp
  have hnext : getNextState 5 s 0 = s := by
    interval_cases s <;> decide
  have hrew : reward 5 s = 0 := by
    have hne : s ≠ 5 * 5 - 1 := by omega
    simp only [reward, if_neg hne]
  have hold : valueAt 5 (QLearning.new 5 alpha gamma epsilon) s = some 0 := q0
  have hchoose : chooseAction 5 u r s (QLearning.new 5 alpha gamma epsilon)
      = some (0, QLearning.new 5 alpha gamma epsilon) := by
    have hu' : ¬ u < (QLearning.new 5 alpha gamma epsilon).epsilon := hu
    simp only [chooseAction, QM.bind_apply, QM.get_apply, Option.some_bind, if_neg hu', hbest]
  have hwrite : writeQ (s.tdiv 5) (s.tmod 5) 0 (QLearning.new 5 alpha gamma epsilon)
      = some ((), QLearning.new 5 alpha gamma epsilon) := by
    interval_cases s <;> rfl
  have hupd : updateQTable 5 s 0 0 s (QLearning.new 5 alpha gamma epsilon)
      = some ((), QLearning.new 5 alpha gamma epsilon) := by
    rw [updateQTable_of_reads 0 0 hold hmax]
    have hval : (0 : ℚ) + (QLearning.new 5 alpha gamma epsilon).alpha *
        (0 + (QLearning.new 5 alpha gamma epsilon).gamma * 0 - 0) = 0 := by ring
    rw [hval, hwrite]
  refine ⟨hchoose, hnext, hrew, ?_⟩
  simp only [trainStep, QM.bind_apply, hchoose, Option.some_bind, hnext, hrew, hupd,
    QM.pure_apply]

theorem rowZero_loop (alpha gamma epsilon : ℚ) (s : Int) (h0 : 0 ≤ s) (h4 : s ≤ 4) (u : ℚ)
    (r : Int) (hu : ¬ u < epsilon) (k : Nat) :
    whileLoop 5 (List.replicate k (u, r)) s (QLearning.new 5 alpha gamma epsilon)
      = some ((s, k), QLearning.new 5 alpha gamma epsilon) := by
  induction k with
  | zero => rfl
  | succ k ih =>
    have hne : s ≠ 5 * 5 - 1 := by omega
    have hstep := (rowZero_step alpha gamma epsilon s h0 h4 u r hu).2.2.2
    simp only [List.replicate_succ, whileLoop, ne_eq, hne, not_false_eq_true, if_true,
      QM.bind_apply, hstep, Option.some_bind, ih, QM.pure_apply]

/-- C16: on the 5 x 5 grid with the zero-initialised table, from a state of row 0 a training
step that takes the greedy branch of `chooseAction` (draw `u` not below the exploration
rate) chooses action 0 (Up), stays in the same state, has reward 0 and leaves the agent,
hence the table, unchanged. So for every `k` there are `k` pairs of draws that the generator
can produce (the exploration rate being below 1) after which the `while` loop has performed
`k` iterations and still stands at that state, which is not the terminal state. -/
theorem episode_unbounded (alpha gamma epsilon : ℚ) (state : Int)
    (hs : ValidState GRID_SIZE state) (hrow : state / GRID_SIZE = 0) (heps : epsilon < 1) :
    (∀ (u : ℚ) (r : Int), ¬ u < epsilon →
      chooseAction GRID_SIZE u r state (QLearning.new GRID_SIZE alpha gamma epsilon)
        = some (0, QLearning.new GRID_SIZE alpha gamma epsilon) ∧
      getNextState GRID_SIZE state 0 = state ∧ reward GRID_SIZE state = 0 ∧
      trainStep GRID_SIZE u r state (QLearning.new GRID_SIZE alpha gamma epsilon)
        = some (state, QLearning.new GRID_SIZE alpha gamma epsilon)) ∧
    (∀ k : Nat, ∃ draws : List (ℚ × Int), draws.length = k ∧ (∀ d ∈ draws, ValidDraw d) ∧
      whileLoop GRID_SIZE draws state (QLearning.new GRID_SIZE alpha gamma epsilon)
        = some ((state, k), QLearning.new GRID_SIZE alpha gamma epsilon)) ∧
    state ≠ GRID_SIZE * GRID_SIZE - 1 := by
  have h5 : GRID_SIZE = 5 := rfl
  rw [h5] at hs hrow ⊢
  obtain ⟨h0, h1⟩ := hs
  have h4 : state ≤ 4 := by omega
  refine ⟨fun u r hu => rowZero_step alpha gamma epsilon state h0 h4 u r hu, fun k => ?_,
    by omega⟩
  have hu : ¬ max epsilon 0 < epsilon := not_lt.mpr (le_max_left _ _)
  refine ⟨List.replicate k (max epsilon 0, 0), List.length_replicate _ _, ?_,
    rowZero_loop alpha gamma epsilon state h0 h4 _ 0 hu k⟩
  intro d hd
  rw [(List.mem_replicate.1 hd).2]
  exact ⟨le_max_right _ _, max_lt heps (by norm_num), le_refl 0, by norm_num⟩

/-- C16 for the agent of main at state 2: the greedy step with `u = 1/2` stays at state 2
with the agent unchanged, and seven pairs of valid draws give seven iterations of the
`while` loop that still stands at state 2. -/
theorem episode_unbounded_witness :
    trainStep GRID_SIZE (1 / 2) 0 2 mainAgent = some (2, mainAgent) ∧
    ∃ draws : List (ℚ × Int), draws.length = 7 ∧ (∀ d ∈ draws, ValidDraw d) ∧
      whileLoop GRID_SIZE draws 2 mainAgent = some ((2, 7), mainAgent) :=
  have h := episode_unbounded (1 / 2) (9 / 10) (1 / 10) 2 (by decide) (by decide)
    (by norm_num)
  ⟨(h.1 (1 / 2) 0 (by norm_num)).2.2.2, h.2.1 7⟩
